import Mathlib

/-!
# HashTable (src/hash_table/hash_table.h)

A shallow embedding of the open-addressing hash table with linear probing and
backward-shift deletion, and the proofs of its contract.

Modelling choices.

* Keys are the `uint64_t` image of the integral key type `K` (the conversion
  performed at every call of `split_mix_64`); they are natural numbers.
  `split_mix_64` wraps modulo `2^64` at every addition and multiplication.
* `size_t` fields (`_count`, `_capacity`, `_mask`) and bucket pointers are
  natural numbers; a bucket pointer is the index of the bucket in `_data`.
  `_count * 100` and `_capacity * 2` are computed without wrap-around: they
  stay below `2^64` on every table whose bucket array fits in an address space
  (capacity below `2^57`).  `_count--` in `remove` runs with a present bucket
  in the array, where `_count` is at least 1 on a reachable table.
* `_data` is the list of the `_capacity` allocated buckets.  `malloc` is taken
  to succeed, and `memset` to zero gives the bucket `zero_bucket`
  (key `0`, value `default`, not present).
* The two unbounded loops (`find_bucket` and the compaction loop of `remove`)
  run on fuel `_capacity`; `none` is the loop that has not stopped after
  `_capacity` iterations.  For `find_bucket` the walk then is back at its
  starting slot with the array unchanged, so `none` is exactly a loop that
  never stops.  Every operation on a reachable table is proved to return
  `some`.
* A returned `V *` is the value it points to (`Option V`, `none` for
  `nullptr`); the reference returned by `emplace` is the index of its bucket.
-/

namespace HashTable

/-- The record `struct Bucket { K key; V value; bool present; }`. -/
structure Bucket (V : Type) where
  key : Nat
  value : V
  present : Bool
deriving DecidableEq

end HashTable

/-- The fields of `struct HashTable`. -/
structure HashTable (V : Type) where
  _count : Nat
  _capacity : Nat
  _mask : Nat
  _data : List (HashTable.Bucket V)
deriving DecidableEq

namespace HashTable

variable {V : Type} [Inhabited V]

/-- The mixing function `split_mix_64` on `uint64_t`. -/
def split_mix_64 (x : Nat) : Nat :=
  let x := (x + 0x9e3779b97f4a7c15) % 2 ^ 64
  let x := ((x ^^^ (x >>> 30)) * 0xbf58476d1ce4e5b9) % 2 ^ 64
  let x := ((x ^^^ (x >>> 27)) * 0x94d049bb133111eb) % 2 ^ 64
  x ^^^ (x >>> 31)

/-- A bucket of zeroed memory. -/
def zero_bucket : Bucket V :=
  { key := 0, value := default, present := false }

/-- The bucket `data[i]`. -/
def bucketAt (data : List (Bucket V)) (i : Nat) : Bucket V :=
  (data[i]?).getD zero_bucket

/-- The private `allocate`: `new_capacity` zeroed buckets. -/
def allocate (new_capacity : Nat) : List (Bucket V) :=
  List.replicate new_capacity zero_bucket

/-- The constructor `HashTable()`. -/
def new : HashTable V :=
  { _count := 0, _capacity := 8, _mask := 8 - 1, _data := allocate 8 }

/-- The method `count`. -/
def count (t : HashTable V) : Nat :=
  t._count

/-- The method `clear`. -/
def clear (t : HashTable V) : HashTable V :=
  { t with _data := List.replicate t._capacity zero_bucket, _count := 0 }

/-- The step `bucket++; if (bucket == buckets_end) bucket = data;`. -/
def wrap_next (capacity bucket : Nat) : Nat :=
  if bucket + 1 = capacity then 0 else bucket + 1

/-- The `while` loop of `find_bucket`, on fuel. -/
def find_bucket_loop (data : List (Bucket V)) (capacity key : Nat) : Nat → Nat → Option Nat
  | 0, _ => none
  | fuel + 1, bucket =>
    if (bucketAt data bucket).present && (bucketAt data bucket).key != key then
      find_bucket_loop data capacity key fuel (wrap_next capacity bucket)
    else
      some bucket

/-- The private `find_bucket`: the index of the bucket it returns. -/
def find_bucket (data : List (Bucket V)) (capacity mask key : Nat) : Option Nat :=
  find_bucket_loop data capacity key capacity (split_mix_64 key &&& mask)

/-- The method `get`; the outer `none` is a probe that does not stop. -/
def get (t : HashTable V) (key : Nat) : Option (Option V) :=
  match find_bucket t._data t._capacity t._mask key with
  | none => none
  | some bucket =>
    some (if (bucketAt t._data bucket).present && (bucketAt t._data bucket).key == key
      then some (bucketAt t._data bucket).value else none)

/-- The `for` loop of `maybe_resize` over the old buckets. -/
def maybe_resize_loop (new_capacity new_mask : Nat) :
    List (Bucket V) → List (Bucket V) → Option (List (Bucket V))
  | [], new_data => some new_data
  | bucket :: rest, new_data =>
    if !bucket.present then
      maybe_resize_loop new_capacity new_mask rest new_data
    else
      match find_bucket new_data new_capacity new_mask bucket.key with
      | none => none
      | some new_bucket =>
        maybe_resize_loop new_capacity new_mask rest (new_data.set new_bucket bucket)

/-- The private `maybe_resize`. -/
def maybe_resize (t : HashTable V) : Option (HashTable V) :=
  if t._count * 100 / t._capacity > 60 then
    let new_capacity := t._capacity * 2
    let new_mask := new_capacity - 1
    match maybe_resize_loop new_capacity new_mask t._data (allocate new_capacity) with
    | none => none
    | some new_data =>
      some { t with _data := new_data, _capacity := new_capacity, _mask := new_mask }
  else
    some t

/-- The method `emplace`: the table after the call and the index of the bucket
whose `value` the returned reference designates. -/
def emplace (t : HashTable V) (key : Nat) : Option (HashTable V × Nat) :=
  match maybe_resize t with
  | none => none
  | some t1 =>
    match find_bucket t1._data t1._capacity t1._mask key with
    | none => none
    | some bucket =>
      let t2 : HashTable V :=
        if !(bucketAt t1._data bucket).present then
          { t1 with
            _count := t1._count + 1
            _data := t1._data.set bucket { bucketAt t1._data bucket with present := true } }
        else t1
      some ({ t2 with _data := t2._data.set bucket { bucketAt t2._data bucket with key := key } },
        bucket)

/-- The method `set`: `emplace`, then the assignment through the reference. -/
def set (t : HashTable V) (key : Nat) (value : V) : Option (HashTable V) :=
  match emplace t key with
  | none => none
  | some (t1, item) =>
    some { t1 with _data := t1._data.set item { bucketAt t1._data item with value := value } }

/-- The `while (true)` loop of `remove`, on fuel; `bucket` is the slot examined
by the previous iteration. -/
def remove_loop (capacity mask : Nat) :
    Nat → List (Bucket V) → Nat → Nat → Option (List (Bucket V))
  | 0, _, _, _ => none
  | fuel + 1, data, deleted, bucket =>
    let bucket := wrap_next capacity bucket
    if !(bucketAt data bucket).present then
      some data
    else
      let natural := split_mix_64 (bucketAt data bucket).key &&& mask
      if natural = bucket then
        remove_loop capacity mask fuel data deleted bucket
      else if (if deleted < bucket then decide (deleted < natural) && decide (natural < bucket)
          else decide (natural < bucket) || decide (deleted < natural)) then
        remove_loop capacity mask fuel data deleted bucket
      else
        let data := data.set deleted (bucketAt data bucket)
        let deleted := bucket
        let data := data.set deleted { bucketAt data deleted with present := false }
        remove_loop capacity mask fuel data deleted bucket

/-- The method `remove`. -/
def remove (t : HashTable V) (key : Nat) : Option (HashTable V) :=
  match find_bucket t._data t._capacity t._mask key with
  | none => none
  | some deleted =>
    if !(bucketAt t._data deleted).present then
      some t
    else
      let data := t._data.set deleted { bucketAt t._data deleted with present := false }
      match remove_loop t._capacity t._mask t._capacity data deleted deleted with
      | none => none
      | some data => some { t with _data := data, _count := t._count - 1 }

/-- One call of the public interface that changes the table. -/
inductive Op (V : Type) where
  | set (key : Nat) (value : V)
  | emplace (key : Nat)
  | remove (key : Nat)
  | clear

/-- The table after one call. -/
def step (t : HashTable V) : Op V → Option (HashTable V)
  | Op.set key value => set t key value
  | Op.emplace key => (emplace t key).map Prod.fst
  | Op.remove key => remove t key
  | Op.clear => some (clear t)

/-- The table after a sequence of calls, first call first. -/
def run : List (Op V) → HashTable V → Option (HashTable V)
  | [], t => some t
  | op :: ops, t =>
    match step t op with
    | none => none
    | some t1 => run ops t1

/-- A table reachable from a fresh one by `set`, `emplace`, `remove`, `clear`. -/
def Reachable (t : HashTable V) : Prop :=
  ∃ ops : List (Op V), run ops new = some t

/-- The natural slot of a key. -/
def natural_slot (mask key : Nat) : Nat :=
  split_mix_64 key &&& mask

/-- Slot `s` lies on the wrap-around walk from `n` up to, not including, `a`. -/
def OnWalk (n s a : Nat) : Prop :=
  (n ≤ a ∧ n ≤ s ∧ s < a) ∨ (a < n ∧ (n ≤ s ∨ s < a))

/-- The number of forward steps from `b` to `e`, wrapping at `capacity`. -/
def steps_to (capacity b e : Nat) : Nat :=
  if b ≤ e then e - b else e + capacity - b

/-- The number of present buckets found by scanning the whole array. -/
def present_count (d : List (Bucket V)) : Nat :=
  d.countP (fun b => b.present)

/-- The probe for `key` stops at slot `s`: the slot is empty or holds `key`. -/
def Stops (d : List (Bucket V)) (key s : Nat) : Prop :=
  (bucketAt d s).present = true → (bucketAt d s).key = key

/-- Probe-sequence contiguity of a bucket array: every slot on the walk from
the natural slot of a present bucket up to that bucket is present. -/
def Contiguous (d : List (Bucket V)) (capacity mask : Nat) : Prop :=
  ∀ a, a < capacity → (bucketAt d a).present = true →
    ∀ s, s < capacity → OnWalk (natural_slot mask (bucketAt d a).key) s a →
      (bucketAt d s).present = true

/-- Key uniqueness of a bucket array: two present buckets with one key are
one bucket. -/
def UniqueKeys (d : List (Bucket V)) (capacity : Nat) : Prop :=
  ∀ a b, a < capacity → b < capacity → (bucketAt d a).present = true →
    (bucketAt d b).present = true → (bucketAt d a).key = (bucketAt d b).key → a = b

/-- Some present bucket of the array holds `key` with `value`. -/
def Holds (d : List (Bucket V)) (capacity key : Nat) (value : V) : Prop :=
  ∃ a, a < capacity ∧ (bucketAt d a).present = true ∧ (bucketAt d a).key = key ∧
    (bucketAt d a).value = value

/-- No two present buckets of the list hold the same key. -/
def DistinctKeys (l : List (Bucket V)) : Prop :=
  l.Pairwise (fun x y => x.present = true → y.present = true → x.key ≠ y.key)

/-- Slot `s` lies on the wrap-around walk from just after `d` up to and
including `b`. -/
def AfterUpTo (d s b : Nat) : Prop :=
  (d ≤ b ∧ d < s ∧ s ≤ b) ∨ (b < d ∧ (d < s ∨ s ≤ b))

/-- The state of the compaction loop of `remove` before an iteration: the
vacancy `deleted` is empty, the slots scanned since the vacancy moved there
are present and must stay where they are, and the array is contiguous but
for the vacancy. -/
structure Compacting (data : List (Bucket V)) (capacity mask deleted bucket : Nat) : Prop where
  length_eq : data.length = capacity
  deleted_lt : deleted < capacity
  bucket_lt : bucket < capacity
  vacant : (bucketAt data deleted).present = false
  scanned : ∀ s, s < capacity → AfterUpTo deleted s bucket →
    (bucketAt data s).present = true ∧
      ¬ OnWalk (natural_slot mask (bucketAt data s).key) deleted s
  weak : ∀ a, a < capacity → (bucketAt data a).present = true →
    ∀ s, s < capacity → OnWalk (natural_slot mask (bucketAt data a).key) s a →
      (bucketAt data s).present = true ∨ s = deleted
  unique : UniqueKeys data capacity

/-- The array after the move step of `remove`: the record of `bucket` copied
into `deleted`, then `bucket` marked empty. -/
def move_bucket (data : List (Bucket V)) (deleted bucket : Nat) : List (Bucket V) :=
  (data.set deleted (bucketAt data bucket)).set bucket
    { bucketAt (data.set deleted (bucketAt data bucket)) bucket with present := false }

/-- The invariant of the table: the shape of the fields, count consistency,
the load bound left by the last insert, probe-sequence contiguity and key
uniqueness. -/
structure Inv (t : HashTable V) : Prop where
  length_eq : t._data.length = t._capacity
  mask_eq : t._mask = t._capacity - 1
  capacity_pow : ∃ n, 3 ≤ n ∧ t._capacity = 2 ^ n
  count_eq : t._count = present_count t._data
  load : t._count * 100 < 61 * t._capacity + 100
  contiguous : Contiguous t._data t._capacity t._mask
  unique : UniqueKeys t._data t._capacity

/-- A call `set(k', _)` or `remove(k')` on a key `k'` other than `key`. -/
def Op.avoids (key : Nat) : Op V → Prop
  | Op.set k _ => k ≠ key
  | Op.remove k => k ≠ key
  | Op.emplace _ => False
  | Op.clear => False

/-- The table after a sequence of calls on a fresh table (the fresh table when
a call does not return). -/
def after (ops : List (Op Nat)) : HashTable Nat :=
  (run ops new).getD new

/-- Three keys whose natural slot in a table of capacity 8 is slot 2. -/
def chain_ops : List (Op Nat) :=
  [Op.set 4 40, Op.set 5 50, Op.set 10 100]

/-- Three keys with three different natural slots in a table of capacity 8. -/
def scattered_ops : List (Op Nat) :=
  [Op.set 1 10, Op.set 2 20, Op.set 3 30]

/-- Four distinct keys. -/
def four_ops : List (Op Nat) :=
  [Op.set 1 10, Op.set 2 20, Op.set 3 30, Op.set 4 40]

/-- Five distinct keys. -/
def five_ops : List (Op Nat) :=
  [Op.set 1 10, Op.set 2 20, Op.set 3 30, Op.set 4 40, Op.set 5 50]

/-- Three keys whose natural slot in a table of capacity 8 is the last slot 7:
key 0 sits in slot 7 and the probes of keys 7 and 13 wrap to slots 0 and 1. -/
def wrapping_ops : List (Op Nat) :=
  [Op.set 0 1, Op.set 7 70, Op.set 13 130]

/-- The keys of the present buckets, in array order. -/
def stored_keys (d : List (Bucket V)) : List Nat :=
  (d.filter (fun b => b.present)).map (fun b => b.key)

/-- Keys 6 and 29, whose natural slot in a table of capacity 8 is slot 0, sit
in slots 0 and 1, and key 0 sits in its natural slot 7. -/
def low_chain_ops : List (Op Nat) :=
  [Op.set 6 60, Op.set 29 290, Op.set 0 1]

/-- Keys 0 and 7, whose natural slot in a table of capacity 8 is the last slot
7: key 0 sits in slot 7 and the probe of key 7 wraps to slot 0; slot 1 is
empty. -/
def wrapped_pair_ops : List (Op Nat) :=
  [Op.set 0 1, Op.set 7 70]

/-- The array of `after chain_ops` once `remove(5)` has marked bucket 3, which
holds key 5, empty: the vacancy is slot 3 and key 10 sits in slot 4. -/
def chain_vacated : List (Bucket Nat) :=
  (after chain_ops)._data.set 3 { bucketAt (after chain_ops)._data 3 with present := false }

/-- The array of `after wrapped_pair_ops` once `remove(0)` has marked bucket 7,
which holds key 0, empty: the vacancy is slot 7 and key 7 sits in slot 0. -/
def wrapped_pair_vacated : List (Bucket Nat) :=
  (after wrapped_pair_ops)._data.set 7
    { bucketAt (after wrapped_pair_ops)._data 7 with present := false }

end HashTable

/-!
# Random (src/random/random.h)

The generator `class Random` (xoshiro256++ seeded through `split_mix_64`),
its bounded draw `get_range`, bitmask rejection branch, and `shuffle`.

* `uint64_t` values are natural numbers; every addition, multiplication and
  left shift wraps modulo `2^64`, and `range--` is `(range + 2^64 - 1) mod 2^64`.
* A method that advances the generator returns its result together with the
  generator after the call.
* The three intrinsics that `get_range` selects between all count the leading
  zero bits of the nonzero 64-bit value `range | 1`; `clzll` is that count.
* The rejection loop of `get_range` runs on fuel given by the caller; `none`
  is the loop that has not stopped after that many draws.
* An array is the list of its elements; `size_t` index arithmetic wraps modulo
  `2^64`, and an access at an index outside the list is `out_of_bounds`.
-/

namespace Cpplibs

/-- The generator state `uint64_t state[4]` of `class Random`. -/
structure Random where
  state0 : Nat
  state1 : Nat
  state2 : Nat
  state3 : Nat
deriving DecidableEq

namespace Random

/-- The private `split_mix_64` of `class Random`, on `uint64_t`. -/
def split_mix_64 (x : Nat) : Nat :=
  let x := (x + 0x9e3779b97f4a7c15) % 2 ^ 64
  let x := ((x ^^^ (x >>> 30)) * 0xbf58476d1ce4e5b9) % 2 ^ 64
  let x := ((x ^^^ (x >>> 27)) * 0x94d049bb133111eb) % 2 ^ 64
  x ^^^ (x >>> 31)

/-- The method `seed`, as run by the constructor `Random(uint64_t seed_val)`. -/
def seed (val : Nat) : Random :=
  let val0 := split_mix_64 val
  let val1 := split_mix_64 val0
  let val2 := split_mix_64 val1
  let val3 := split_mix_64 val2
  { state0 := val0, state1 := val1, state2 := val2, state3 := val3 }

/-- The private `rotl` on `uint64_t`. -/
def rotl (x k : Nat) : Nat :=
  ((x <<< k) % 2 ^ 64) ||| (x >>> (64 - k))

/-- The method `get_u64`: its result and the generator after the call. -/
def get_u64 (r : Random) : Nat × Random :=
  let result := (rotl ((r.state0 + r.state3) % 2 ^ 64) 23 + r.state0) % 2 ^ 64
  let t := (r.state1 <<< 17) % 2 ^ 64
  let s2 := r.state2 ^^^ r.state0
  let s3 := r.state3 ^^^ r.state1
  let s1 := r.state1 ^^^ s2
  let s0 := r.state0 ^^^ s3
  let s2 := s2 ^^^ t
  let s3 := rotl s3 45
  (result, { state0 := s0, state1 := s1, state2 := s2, state3 := s3 })

/-- The number of significant bits of `x` among its low `n` bits. -/
def bit_width : Nat → Nat → Nat
  | 0, _ => 0
  | n + 1, x => if x = 0 then 0 else bit_width n (x / 2) + 1

/-- The count of leading zero bits of a nonzero 64-bit value, which
`_lzcnt_u64`, `__builtin_clzll` and `63 - _BitScanReverse64` all compute. -/
def clzll (x : Nat) : Nat :=
  64 - bit_width 64 x

/-- The `do ... while (x > range)` loop of `get_range`, on fuel: `none` is the
loop that has not stopped after `fuel` draws. -/
def get_range_loop (mask range : Nat) : Nat → Random → Option (Nat × Random)
  | 0, _ => none
  | fuel + 1, r =>
    let x := (get_u64 r).1 &&& mask
    if x > range then get_range_loop mask range fuel (get_u64 r).2
    else some (x, (get_u64 r).2)

/-- The method `get_range`, bitmask rejection branch, on fuel: its result and
the generator after the call. -/
def get_range (fuel : Nat) (r : Random) (range : Nat) : Option (Nat × Random) :=
  let mask := 2 ^ 64 - 1
  let range := (range + 2 ^ 64 - 1) % 2 ^ 64
  let index := clzll (range ||| 1)
  let mask := mask >>> index
  get_range_loop mask range fuel r

/-- The generator after `n` calls of `get_u64`. -/
def advance (r : Random) : Nat → Random
  | 0 => r
  | n + 1 => advance (get_u64 r).2 n

/-- The result of the call of `get_u64` number `n`, counted from 0. -/
def draw (r : Random) (n : Nat) : Nat :=
  (get_u64 (advance r n)).1

end Random

end Cpplibs

namespace HashTable

variable {V : Type} [Inhabited V]

theorem natural_slot_lt {capacity mask : Nat} (h : mask < capacity) (key : Nat) :
    natural_slot mask key < capacity :=
  lt_of_le_of_lt Nat.and_le_right h

theorem wrap_next_cases (capacity b : Nat) :
    (b + 1 = capacity ∧ wrap_next capacity b = 0) ∨
    (b + 1 ≠ capacity ∧ wrap_next capacity b = b + 1) := by
  unfold wrap_next
  split_ifs with h
  · exact Or.inl ⟨h, rfl⟩
  · exact Or.inr ⟨h, rfl⟩

theorem bucketAt_set_eq (d : List (Bucket V)) (i : Nat) (b : Bucket V) (h : i < d.length) :
    bucketAt (d.set i b) i = b := by
  simp [bucketAt, h]

theorem bucketAt_set_ne (d : List (Bucket V)) {i j : Nat} (b : Bucket V) (h : i ≠ j) :
    bucketAt (d.set i b) j = bucketAt d j := by
  simp [bucketAt, List.getElem?_set_ne h]

theorem bucketAt_replicate (n i : Nat) :
    bucketAt (List.replicate n (zero_bucket : Bucket V)) i = zero_bucket := by
  unfold bucketAt
  by_cases h : i < n
  · simp [List.getElem?_replicate, h]
  · simp [List.getElem?_replicate, h]

theorem bucketAt_of_le (d : List (Bucket V)) {i : Nat} (h : d.length ≤ i) :
    bucketAt d i = zero_bucket := by
  simp [bucketAt, List.getElem?_eq_none h]

theorem present_count_set (d : List (Bucket V)) (i : Nat) (b : Bucket V) (h : i < d.length) :
    present_count (d.set i b) + (if (bucketAt d i).present then 1 else 0) =
      present_count d + (if b.present then 1 else 0) := by
  induction d generalizing i with
  | nil => simp at h
  | cons x xs ih =>
    cases i with
    | zero =>
      simp only [List.set_cons_zero, present_count, List.countP_cons, bucketAt,
        List.getElem?_cons_zero, Option.getD_some]
      omega
    | succ n =>
      have hn : n < xs.length := by simpa using h
      have := ih n hn
      simp only [present_count, bucketAt, List.set_cons_succ, List.countP_cons,
        List.getElem?_cons_succ] at this ⊢
      omega

theorem exists_empty (d : List (Bucket V)) (h : present_count d < d.length) :
    ∃ e, e < d.length ∧ (bucketAt d e).present = false := by
  by_contra hne
  push_neg at hne
  have : present_count d = d.length := by
    unfold present_count
    rw [List.countP_eq_length]
    intro a ha
    obtain ⟨i, hi, rfl⟩ := List.getElem_of_mem ha
    have := hne i hi
    simpa [bucketAt, hi] using this
  omega

theorem find_bucket_loop_sound (d : List (Bucket V)) (capacity key : Nat) :
    ∀ (fuel b r : Nat), b < capacity → find_bucket_loop d capacity key fuel b = some r →
      r < capacity ∧ Stops d key r ∧
        ∀ s, s < capacity → OnWalk b s r → ¬ Stops d key s := by
  intro fuel
  induction fuel with
  | zero => intro b r _ h; simp [find_bucket_loop] at h
  | succ n ih =>
    intro b r hb h
    unfold find_bucket_loop at h
    split_ifs at h with hc
    · have hns : ¬ Stops d key b := by
        simp only [Bool.and_eq_true, bne_iff_ne, ne_eq] at hc
        intro hs
        exact hc.2 (hs hc.1)
      have hw := wrap_next_cases capacity b
      have hb' : wrap_next capacity b < capacity := by omega
      obtain ⟨hr, hst, hall⟩ := ih _ r hb' h
      refine ⟨hr, hst, ?_⟩
      intro s hs hon
      by_cases hsb : s = b
      · subst hsb; exact hns
      · have hrb : r ≠ b := by
          rintro rfl
          exact hns hst
        apply hall s hs
        unfold OnWalk at hon ⊢
        omega
    · simp only [Option.some.injEq] at h
      subst h
      refine ⟨hb, ?_, ?_⟩
      · intro hp
        simp only [Bool.and_eq_true, bne_iff_ne, ne_eq, not_and, not_not] at hc
        exact hc hp
      · intro s _ hon
        unfold OnWalk at hon
        omega

theorem find_bucket_loop_complete (d : List (Bucket V)) (capacity key : Nat) :
    ∀ (fuel b e : Nat), b < capacity → e < capacity → Stops d key e →
      steps_to capacity b e < fuel → ∃ r, find_bucket_loop d capacity key fuel b = some r := by
  intro fuel
  induction fuel with
  | zero => intro b e _ _ _ h; omega
  | succ n ih =>
    intro b e hb he hst hfuel
    unfold find_bucket_loop
    split_ifs with hc
    · have hns : ¬ Stops d key b := by
        simp only [Bool.and_eq_true, bne_iff_ne, ne_eq] at hc
        intro hs
        exact hc.2 (hs hc.1)
      have hne : e ≠ b := by
        rintro rfl
        exact hns hst
      have hw := wrap_next_cases capacity b
      apply ih _ e (by omega) he hst
      unfold steps_to at hfuel ⊢
      split_ifs at hfuel ⊢ <;> omega
    · exact ⟨b, rfl⟩

theorem find_bucket_sound (d : List (Bucket V)) {capacity mask key r : Nat}
    (hm : mask < capacity) (h : find_bucket d capacity mask key = some r) :
    r < capacity ∧ Stops d key r ∧
      ∀ s, s < capacity → OnWalk (natural_slot mask key) s r →
        (bucketAt d s).present = true ∧ (bucketAt d s).key ≠ key := by
  obtain ⟨h1, h2, h3⟩ :=
    find_bucket_loop_sound d capacity key capacity _ r (natural_slot_lt hm key) h
  refine ⟨h1, h2, ?_⟩
  intro s hs hon
  have := h3 s hs hon
  unfold Stops at this
  push_neg at this
  exact this

theorem find_bucket_present (d : List (Bucket V)) {capacity mask a : Nat}
    (hm : mask < capacity) (hc : Contiguous d capacity mask) (hu : UniqueKeys d capacity)
    (ha : a < capacity) (hp : (bucketAt d a).present = true) :
    find_bucket d capacity mask (bucketAt d a).key = some a := by
  have hn := natural_slot_lt hm (bucketAt d a).key
  have hst : Stops d (bucketAt d a).key a := fun _ => rfl
  obtain ⟨r, hr⟩ := find_bucket_loop_complete d capacity (bucketAt d a).key capacity
    (natural_slot mask (bucketAt d a).key) a hn ha hst (by unfold steps_to; split_ifs <;> omega)
  have hr' : find_bucket d capacity mask (bucketAt d a).key = some r := hr
  obtain ⟨h1, h2, h3⟩ := find_bucket_sound d hm hr'
  rw [hr']
  congr 1
  by_contra hne
  by_cases hon : OnWalk (natural_slot mask (bucketAt d a).key) a r
  · exact (h3 a ha hon).2 rfl
  · have hon' : OnWalk (natural_slot mask (bucketAt d a).key) r a := by
      unfold OnWalk at hon ⊢
      omega
    have hpr := hc a ha hp r h1 hon'
    exact hne (hu r a h1 ha hpr hp (h2 hpr))

theorem find_bucket_absent (d : List (Bucket V)) {capacity mask key : Nat}
    (hm : mask < capacity)
    (hk : ∀ a, a < capacity → (bucketAt d a).present = true → (bucketAt d a).key ≠ key)
    (he : ∃ e, e < capacity ∧ (bucketAt d e).present = false) :
    ∃ r, find_bucket d capacity mask key = some r ∧ r < capacity ∧
      (bucketAt d r).present = false := by
  obtain ⟨e, he, hpe⟩ := he
  have hn := natural_slot_lt hm key
  have hst : Stops d key e := by
    intro h
    rw [hpe] at h
    exact absurd h (by simp)
  obtain ⟨r, hr⟩ := find_bucket_loop_complete d capacity key capacity
    (natural_slot mask key) e hn he hst (by unfold steps_to; split_ifs <;> omega)
  have hr' : find_bucket d capacity mask key = some r := hr
  obtain ⟨h1, h2, _⟩ := find_bucket_sound d hm hr'
  refine ⟨r, hr', h1, ?_⟩
  by_contra hp
  simp only [Bool.not_eq_false] at hp
  exact hk r h1 hp (h2 hp)

theorem find_bucket_total (d : List (Bucket V)) {capacity mask : Nat} (key : Nat)
    (hm : mask < capacity) (hc : Contiguous d capacity mask) (hu : UniqueKeys d capacity)
    (he : ∃ e, e < capacity ∧ (bucketAt d e).present = false) :
    ∃ r, find_bucket d capacity mask key = some r := by
  by_cases hk : ∀ a, a < capacity → (bucketAt d a).present = true → (bucketAt d a).key ≠ key
  · obtain ⟨r, hr, _⟩ := find_bucket_absent d hm hk he
    exact ⟨r, hr⟩
  · push_neg at hk
    obtain ⟨a, ha, hp, hka⟩ := hk
    exact ⟨a, hka ▸ find_bucket_present d hm hc hu ha hp⟩

theorem insert_contiguous (d : List (Bucket V)) {capacity mask r : Nat} (bk : Bucket V)
    (hl : d.length = capacity) (hm : mask < capacity) (hc : Contiguous d capacity mask)
    (hr : find_bucket d capacity mask bk.key = some r) (hp : bk.present = true) :
    Contiguous (d.set r bk) capacity mask := by
  obtain ⟨h1, _, h3⟩ := find_bucket_sound d hm hr
  have hat : ∀ s, (bucketAt d s).present = true → (bucketAt (d.set r bk) s).present = true := by
    intro s hs
    by_cases hsr : r = s
    · subst hsr; rw [bucketAt_set_eq d r bk (by omega)]; exact hp
    · rw [bucketAt_set_ne d bk hsr]; exact hs
  intro a ha hpa s hs hon
  by_cases har : r = a
  · subst har
    rw [bucketAt_set_eq d r bk (by omega)] at hon
    exact hat s (h3 s hs hon).1
  · rw [bucketAt_set_ne d bk har] at hpa hon
    exact hat s (hc a ha hpa s hs hon)

theorem insert_uniqueKeys (d : List (Bucket V)) {capacity mask r : Nat} (bk : Bucket V)
    (hl : d.length = capacity) (hm : mask < capacity) (hc : Contiguous d capacity mask)
    (hu : UniqueKeys d capacity)
    (hr : find_bucket d capacity mask bk.key = some r) :
    UniqueKeys (d.set r bk) capacity := by
  obtain ⟨h1, _, _⟩ := find_bucket_sound d hm hr
  have key : ∀ a, a < capacity → r ≠ a → (bucketAt d a).present = true →
      (bucketAt d a).key ≠ bk.key := by
    intro a ha hne hp hk
    have := find_bucket_present d hm hc hu ha hp
    rw [hk, hr] at this
    exact hne (Option.some.inj this)
  intro a b ha hb hpa hpb hk
  by_cases har : r = a <;> by_cases hbr : r = b
  · omega
  · subst har
    rw [bucketAt_set_eq d r bk (by omega)] at hk
    rw [bucketAt_set_ne d bk hbr] at hpb hk
    exact absurd hk.symm (key b hb hbr hpb)
  · subst hbr
    rw [bucketAt_set_eq d r bk (by omega)] at hk
    rw [bucketAt_set_ne d bk har] at hpa hk
    exact absurd hk (key a ha har hpa)
  · rw [bucketAt_set_ne d bk har] at hpa hk
    rw [bucketAt_set_ne d bk hbr] at hpb hk
    exact hu a b ha hb hpa hpb hk

theorem insert_holds (d : List (Bucket V)) {capacity mask r : Nat} (bk : Bucket V)
    (hl : d.length = capacity) (hm : mask < capacity) (hc : Contiguous d capacity mask)
    (hu : UniqueKeys d capacity)
    (hr : find_bucket d capacity mask bk.key = some r) (hp : bk.present = true)
    (key : Nat) (value : V) :
    Holds (d.set r bk) capacity key value ↔
      (key = bk.key ∧ value = bk.value) ∨ (key ≠ bk.key ∧ Holds d capacity key value) := by
  obtain ⟨h1, h2, _⟩ := find_bucket_sound d hm hr
  constructor
  · rintro ⟨a, ha, hpa, hka, hva⟩
    by_cases har : r = a
    · subst har
      rw [bucketAt_set_eq d r bk (by omega)] at hka hva
      exact Or.inl ⟨hka.symm, hva.symm⟩
    · rw [bucketAt_set_ne d bk har] at hpa hka hva
      refine Or.inr ⟨?_, a, ha, hpa, hka, hva⟩
      intro hk
      have := find_bucket_present d hm hc hu ha hpa
      rw [hka, hk, hr] at this
      exact har (Option.some.inj this)
  · rintro (⟨hk, hv⟩ | ⟨hk, a, ha, hpa, hka, hva⟩)
    · refine ⟨r, h1, ?_⟩
      rw [bucketAt_set_eq d r bk (by omega)]
      exact ⟨hp, hk.symm, hv.symm⟩
    · have har : r ≠ a := by
        rintro rfl
        exact hk (hka ▸ h2 hpa)
      refine ⟨a, ha, ?_⟩
      rw [bucketAt_set_ne d bk har]
      exact ⟨hpa, hka, hva⟩

theorem insert_present_count (d : List (Bucket V)) {r : Nat} (bk : Bucket V)
    (hr : r < d.length) (hp : bk.present = true) :
    present_count (d.set r bk) =
      present_count d + (if (bucketAt d r).present then 0 else 1) := by
  have := present_count_set d r bk hr
  rw [hp] at this
  by_cases h : (bucketAt d r).present = true
  · simp only [h, if_true] at this ⊢
    omega
  · simp only [h, if_true] at this ⊢
    simp only [Bool.false_eq_true, if_false] at this ⊢
    omega

theorem bucketAt_eq_getElem (d : List (Bucket V)) (a : Nat) (h : a < d.length) :
    bucketAt d a = d[a] := by
  simp [bucketAt, h]

theorem uniqueKeys_distinct (d : List (Bucket V)) (hu : UniqueKeys d d.length) :
    DistinctKeys d := by
  unfold DistinctKeys
  rw [List.pairwise_iff_getElem]
  intro i j hi hj hij hpi hpj hk
  have := hu i j hi hj (by rw [bucketAt_eq_getElem d i hi]; exact hpi)
    (by rw [bucketAt_eq_getElem d j hj]; exact hpj)
    (by rw [bucketAt_eq_getElem d i hi, bucketAt_eq_getElem d j hj]; exact hk)
  omega

theorem maybe_resize_loop_spec (new_capacity new_mask : Nat) (hm : new_mask < new_capacity) :
    ∀ (old nd : List (Bucket V)), nd.length = new_capacity →
      Contiguous nd new_capacity new_mask → UniqueKeys nd new_capacity →
      present_count nd + present_count old < new_capacity →
      DistinctKeys old →
      (∀ b, b ∈ old → b.present = true → ∀ a, a < new_capacity →
        (bucketAt nd a).present = true → (bucketAt nd a).key ≠ b.key) →
      ∃ nd', maybe_resize_loop new_capacity new_mask old nd = some nd' ∧
        nd'.length = new_capacity ∧ Contiguous nd' new_capacity new_mask ∧
        UniqueKeys nd' new_capacity ∧
        present_count nd' = present_count nd + present_count old ∧
        ∀ key value, Holds nd' new_capacity key value ↔
          (Holds nd new_capacity key value ∨
            ∃ b, b ∈ old ∧ b.present = true ∧ b.key = key ∧ b.value = value) := by
  intro old
  induction old with
  | nil =>
    intro nd hl hc hu _ _ _
    exact ⟨nd, rfl, hl, hc, hu, by simp [present_count], by simp⟩
  | cons bucket rest ih =>
    intro nd hl hc hu hcount hd hfresh
    unfold DistinctKeys at hd
    rw [List.pairwise_cons] at hd
    unfold maybe_resize_loop
    by_cases hp : bucket.present = true
    · simp only [hp, Bool.not_true, Bool.false_eq_true, if_false]
      have hcnt : present_count (bucket :: rest) = present_count rest + 1 := by
        simp [present_count, List.countP_cons, hp]
      obtain ⟨r, hr, hrlt, hrp⟩ := find_bucket_absent nd hm
        (fun a ha hpa => hfresh bucket (List.mem_cons_self _ _) hp a ha hpa)
        (by
          have := exists_empty nd (by omega)
          rwa [hl] at this)
      rw [hr]
      simp only
      have hpc := insert_present_count nd bucket (by omega : r < nd.length) hp
      simp only [hrp, Bool.false_eq_true, if_false] at hpc
      have hholds := insert_holds nd bucket hl hm hc hu hr hp
      obtain ⟨nd', h1, h2, h3, h4, h5, h6⟩ := ih (nd.set r bucket)
        (by simp [hl])
        (insert_contiguous nd bucket hl hm hc hr hp)
        (insert_uniqueKeys nd bucket hl hm hc hu hr)
        (by omega) hd.2
        (by
          intro b hb hpb a ha hpa
          by_cases har : r = a
          · subst har
            rw [bucketAt_set_eq nd r bucket (by omega)]
            exact hd.1 b hb hp hpb
          · rw [bucketAt_set_ne nd bucket har] at hpa ⊢
            exact hfresh b (List.mem_cons_of_mem _ hb) hpb a ha hpa)
      refine ⟨nd', h1, h2, h3, h4, by omega, ?_⟩
      intro key value
      rw [h6, hholds]
      constructor
      · rintro ((⟨hk, hv⟩ | ⟨_, hh⟩) | ⟨b, hb, hb'⟩)
        · exact Or.inr ⟨bucket, List.mem_cons_self _ _, hp, hk.symm, hv.symm⟩
        · exact Or.inl hh
        · exact Or.inr ⟨b, List.mem_cons_of_mem _ hb, hb'⟩
      · rintro (hh | ⟨b, hb, hpb, hkb, hvb⟩)
        · have hh' := hh
          obtain ⟨a, ha, hpa, hka, _⟩ := hh'
          refine Or.inl (Or.inr ⟨?_, hh⟩)
          rw [← hka]
          exact hfresh bucket (List.mem_cons_self _ _) hp a ha hpa
        · rcases List.mem_cons.mp hb with rfl | hb
          · exact Or.inl (Or.inl ⟨hkb.symm, hvb.symm⟩)
          · exact Or.inr ⟨b, hb, hpb, hkb, hvb⟩
    · simp only [Bool.not_eq_true] at hp
      simp only [hp, Bool.not_false, if_true]
      have hcnt : present_count (bucket :: rest) = present_count rest := by
        simp [present_count, List.countP_cons, hp]
      obtain ⟨nd', h1, h2, h3, h4, h5, h6⟩ := ih nd hl hc hu (by omega) hd.2
        (fun b hb => hfresh b (List.mem_cons_of_mem _ hb))
      refine ⟨nd', h1, h2, h3, h4, by omega, ?_⟩
      intro key value
      rw [h6]
      constructor
      · rintro (hh | ⟨b, hb, hb'⟩)
        · exact Or.inl hh
        · exact Or.inr ⟨b, List.mem_cons_of_mem _ hb, hb'⟩
      · rintro (hh | ⟨b, hb, hpb, hb'⟩)
        · exact Or.inl hh
        · rcases List.mem_cons.mp hb with rfl | hb
          · rw [hp] at hpb; exact absurd hpb (by simp)
          · exact Or.inr ⟨b, hb, hpb, hb'⟩

theorem compacting_exit {data : List (Bucket V)} {capacity mask deleted bucket : Nat}
    (h : Compacting data capacity mask deleted bucket) (hm : mask < capacity)
    (hx : (bucketAt data (wrap_next capacity bucket)).present = false) :
    Contiguous data capacity mask := by
  intro a ha hpa s hs hon
  rcases h.weak a ha hpa s hs hon with hp | hsd
  · exact hp
  · exfalso
    subst hsd
    have hn := natural_slot_lt hm (bucketAt data a).key
    have hw := wrap_next_cases capacity bucket
    have hD := h.deleted_lt
    have hb := h.bucket_lt
    have haD : a ≠ s := by
      rintro rfl
      rw [h.vacant] at hpa
      exact absurd hpa (by simp)
    have haB : a ≠ wrap_next capacity bucket := by
      intro e
      rw [← e, hpa] at hx
      exact absurd hx (by simp)
    by_cases hau : AfterUpTo s a bucket
    · exact (h.scanned a ha hau).2 hon
    · have hB : wrap_next capacity bucket < capacity := by omega
      have hBD : wrap_next capacity bucket ≠ s := by
        unfold AfterUpTo at hau
        omega
      have honB : OnWalk (natural_slot mask (bucketAt data a).key)
          (wrap_next capacity bucket) a := by
        unfold AfterUpTo at hau
        unfold OnWalk at hon ⊢
        omega
      rcases h.weak a ha hpa _ hB honB with hp | he
      · rw [hx] at hp; exact absurd hp (by simp)
      · exact hBD he

theorem bucketAt_move_bucket (data : List (Bucket V)) {deleted bucket : Nat}
    (hd : deleted < data.length) (hb : bucket < data.length) (hne : deleted ≠ bucket) (x : Nat) :
    bucketAt (move_bucket data deleted bucket) x =
      if x = bucket then { bucketAt data bucket with present := false }
      else if x = deleted then bucketAt data bucket
      else bucketAt data x := by
  unfold move_bucket
  split_ifs with h1 h2
  · subst h1
    rw [bucketAt_set_eq _ _ _ (by simpa using hb), bucketAt_set_ne _ _ hne]
  · subst h2
    rw [bucketAt_set_ne _ _ (Ne.symm h1), bucketAt_set_eq _ _ _ hd]
  · rw [bucketAt_set_ne _ _ (Ne.symm h1), bucketAt_set_ne _ _ (Ne.symm h2)]

theorem compacting_skip {data : List (Bucket V)} {capacity mask deleted bucket : Nat}
    (h : Compacting data capacity mask deleted bucket)
    (hp : (bucketAt data (wrap_next capacity bucket)).present = true)
    (hs : ¬ OnWalk (natural_slot mask (bucketAt data (wrap_next capacity bucket)).key)
      deleted (wrap_next capacity bucket)) :
    Compacting data capacity mask deleted (wrap_next capacity bucket) := by
  have hw := wrap_next_cases capacity bucket
  have hD := h.deleted_lt
  have hb := h.bucket_lt
  refine ⟨h.length_eq, hD, by omega, h.vacant, ?_, h.weak, h.unique⟩
  intro s hs' hau
  by_cases hsB : s = wrap_next capacity bucket
  · rw [hsB]; exact ⟨hp, hs⟩
  · apply h.scanned s hs'
    unfold AfterUpTo at hau ⊢
    omega

theorem compacting_move {data : List (Bucket V)} {capacity mask deleted bucket : Nat}
    (h : Compacting data capacity mask deleted bucket)
    (hp : (bucketAt data (wrap_next capacity bucket)).present = true)
    (hs : OnWalk (natural_slot mask (bucketAt data (wrap_next capacity bucket)).key)
      deleted (wrap_next capacity bucket)) :
    Compacting (move_bucket data deleted (wrap_next capacity bucket)) capacity mask
      (wrap_next capacity bucket) (wrap_next capacity bucket) := by
  have hw := wrap_next_cases capacity bucket
  have hD := h.deleted_lt
  have hb := h.bucket_lt
  have hl := h.length_eq
  have hB : wrap_next capacity bucket < capacity := by omega
  generalize wrap_next capacity bucket = B at *
  have hne : deleted ≠ B := by
    rintro rfl
    rw [h.vacant] at hp
    exact absurd hp (by simp)
  have hat := bucketAt_move_bucket data (by omega : deleted < data.length)
    (by omega : B < data.length) hne
  refine ⟨by simp [move_bucket, hl], hB, hB, by simp [hat], ?_, ?_, ?_⟩
  · intro s _ hau
    unfold AfterUpTo at hau
    omega
  · intro a ha hpa s hs' hon
    rw [hat] at hpa hon
    rw [hat s]
    by_cases hsB : s = B
    · exact Or.inr hsB
    · left
      rw [if_neg hsB]
      by_cases hsD : s = deleted
      · rw [if_pos hsD]; exact hp
      · rw [if_neg hsD]
        by_cases haB : a = B
        · rw [if_pos haB] at hpa
          simp at hpa
        · rw [if_neg haB] at hpa hon
          by_cases haD : a = deleted
          · rw [if_pos haD] at hpa hon
            have : OnWalk (natural_slot mask (bucketAt data B).key) s B := by
              unfold OnWalk at hon hs ⊢
              omega
            rcases h.weak B hB hp s hs' this with hps | hps
            · exact hps
            · exact absurd hps hsD
          · rw [if_neg haD] at hpa hon
            rcases h.weak a ha hpa s hs' hon with hps | hps
            · exact hps
            · exact absurd hps hsD
  · intro a b ha hb' hpa hpb hk
    rw [hat] at hpa hpb hk
    rw [hat b] at hk
    by_cases haB : a = B
    · rw [if_pos haB] at hpa; simp at hpa
    · by_cases hbB : b = B
      · rw [if_pos hbB] at hpb; simp at hpb
      · rw [if_neg haB] at hpa hk
        rw [if_neg hbB] at hpb hk
        by_cases haD : a = deleted <;> by_cases hbD : b = deleted
        · omega
        · rw [if_pos haD] at hk
          rw [if_neg hbD] at hpb hk
          exact absurd (h.unique B b hB hb' hp hpb hk) (Ne.symm hbB)
        · rw [if_pos hbD] at hk
          rw [if_neg haD] at hpa hk
          exact absurd (h.unique a B ha hB hpa hp hk) haB
        · rw [if_neg haD] at hpa hk
          rw [if_neg hbD] at hpb hk
          exact h.unique a b ha hb' hpa hpb hk

theorem move_bucket_holds (data : List (Bucket V)) {capacity deleted bucket : Nat}
    (hl : data.length = capacity) (hd : deleted < capacity) (hb : bucket < capacity)
    (hv : (bucketAt data deleted).present = false)
    (hp : (bucketAt data bucket).present = true) (key : Nat) (value : V) :
    Holds (move_bucket data deleted bucket) capacity key value ↔
      Holds data capacity key value := by
  have hne : deleted ≠ bucket := by
    rintro rfl
    rw [hv] at hp
    exact absurd hp (by simp)
  have hat := bucketAt_move_bucket data (by omega : deleted < data.length)
    (by omega : bucket < data.length) hne
  constructor
  · rintro ⟨a, ha, hpa, hka, hva⟩
    rw [hat] at hpa hka hva
    by_cases haB : a = bucket
    · rw [if_pos haB] at hpa; simp at hpa
    · rw [if_neg haB] at hpa hka hva
      by_cases haD : a = deleted
      · rw [if_pos haD] at hpa hka hva
        exact ⟨bucket, hb, hpa, hka, hva⟩
      · rw [if_neg haD] at hpa hka hva
        exact ⟨a, ha, hpa, hka, hva⟩
  · rintro ⟨a, ha, hpa, hka, hva⟩
    by_cases haB : a = bucket
    · subst haB
      refine ⟨deleted, hd, ?_⟩
      rw [hat, if_neg hne, if_pos rfl]
      exact ⟨hpa, hka, hva⟩
    · have haD : a ≠ deleted := by
        rintro rfl
        rw [hv] at hpa
        exact absurd hpa (by simp)
      refine ⟨a, ha, ?_⟩
      rw [hat, if_neg haB, if_neg haD]
      exact ⟨hpa, hka, hva⟩

theorem move_bucket_present_count (data : List (Bucket V)) {deleted bucket : Nat}
    (hd : deleted < data.length) (hb : bucket < data.length)
    (hv : (bucketAt data deleted).present = false)
    (hp : (bucketAt data bucket).present = true) :
    present_count (move_bucket data deleted bucket) = present_count data := by
  have hne : deleted ≠ bucket := by
    rintro rfl
    rw [hv] at hp
    exact absurd hp (by simp)
  have h1 := present_count_set data deleted (bucketAt data bucket) hd
  have h2 := present_count_set (data.set deleted (bucketAt data bucket)) bucket
    { bucketAt (data.set deleted (bucketAt data bucket)) bucket with present := false }
    (by simpa using hb)
  rw [bucketAt_set_ne _ _ hne] at h2
  simp only [hv, hp, Bool.false_eq_true, if_false, if_true] at h1 h2
  unfold move_bucket
  rw [bucketAt_set_ne _ _ hne]
  dsimp only at h2 ⊢
  omega

theorem remove_loop_spec (capacity mask : Nat) (hm : mask < capacity) :
    ∀ (fuel : Nat) (data : List (Bucket V)) (deleted bucket : Nat),
      Compacting data capacity mask deleted bucket →
      (∃ e, e < capacity ∧ e ≠ deleted ∧ e ≠ bucket ∧ (bucketAt data e).present = false ∧
        steps_to capacity bucket e ≤ fuel) →
      ∃ data', remove_loop capacity mask fuel data deleted bucket = some data' ∧
        data'.length = capacity ∧ Contiguous data' capacity mask ∧
        UniqueKeys data' capacity ∧ present_count data' = present_count data ∧
        ∀ key value, Holds data' capacity key value ↔ Holds data capacity key value := by
  intro fuel
  induction fuel with
  | zero =>
    rintro data deleted bucket h ⟨e, he, _, heb, _, hst⟩
    have := h.bucket_lt
    unfold steps_to at hst
    split_ifs at hst <;> omega
  | succ n ih =>
    rintro data deleted bucket h ⟨e, he, heD, heb, hpe, hst⟩
    have hw := wrap_next_cases capacity bucket
    have hD := h.deleted_lt
    have hb := h.bucket_lt
    have hl := h.length_eq
    have hB : wrap_next capacity bucket < capacity := by omega
    unfold remove_loop
    simp only
    by_cases hp : (bucketAt data (wrap_next capacity bucket)).present = true
    · have heB : e ≠ wrap_next capacity bucket := by
        rintro rfl
        rw [hpe] at hp
        exact absurd hp (by simp)
      have hst' : steps_to capacity (wrap_next capacity bucket) e ≤ n := by
        unfold steps_to at hst ⊢
        split_ifs at hst ⊢ <;> omega
      have hDB : deleted ≠ wrap_next capacity bucket := by
        rintro hDB
        rw [← hDB, h.vacant] at hp
        exact absurd hp (by simp)
      have hN := natural_slot_lt hm (bucketAt data (wrap_next capacity bucket)).key
      have hnat : split_mix_64 (bucketAt data (wrap_next capacity bucket)).key &&& mask =
          natural_slot mask (bucketAt data (wrap_next capacity bucket)).key := rfl
      simp only [hp, Bool.not_true, Bool.false_eq_true, if_false, hnat]
      by_cases hon : OnWalk (natural_slot mask (bucketAt data (wrap_next capacity bucket)).key)
          deleted (wrap_next capacity bucket)
      · have hmv := compacting_move h hp hon
        have c1 : ¬ (natural_slot mask (bucketAt data (wrap_next capacity bucket)).key =
            wrap_next capacity bucket) := by
          unfold OnWalk at hon
          omega
        have c2 : ¬ ((if deleted < wrap_next capacity bucket then
            decide (deleted < natural_slot mask (bucketAt data (wrap_next capacity bucket)).key) &&
              decide (natural_slot mask (bucketAt data (wrap_next capacity bucket)).key <
                wrap_next capacity bucket)
            else decide (natural_slot mask (bucketAt data (wrap_next capacity bucket)).key <
                wrap_next capacity bucket) ||
              decide (deleted <
                natural_slot mask (bucketAt data (wrap_next capacity bucket)).key)) = true) := by
          unfold OnWalk at hon
          split_ifs with hlt
          · simp only [Bool.and_eq_true, decide_eq_true_eq]
            omega
          · simp only [Bool.or_eq_true, decide_eq_true_eq]
            omega
        rw [if_neg c1, if_neg c2]
        obtain ⟨data', h1, h2, h3, h4, h5, h6⟩ :=
          ih (move_bucket data deleted (wrap_next capacity bucket)) _ _ hmv
            ⟨e, he, heB, heB, by
              rw [bucketAt_move_bucket data (by omega) (by omega) hDB, if_neg heB, if_neg heD]
              exact hpe, hst'⟩
        refine ⟨data', h1, h2, h3, h4, ?_, ?_⟩
        · rw [h5]
          exact move_bucket_present_count data (by omega) (by omega) h.vacant hp
        · intro key value
          rw [h6]
          exact move_bucket_holds data hl hD hB h.vacant hp key value
      · have hsk := compacting_skip h hp hon
        have hrec := ih data deleted (wrap_next capacity bucket) hsk
          ⟨e, he, heD, heB, hpe, hst'⟩
        by_cases c1 : natural_slot mask (bucketAt data (wrap_next capacity bucket)).key =
            wrap_next capacity bucket
        · rw [if_pos c1]
          exact hrec
        · have c2 : (if deleted < wrap_next capacity bucket then
              decide (deleted < natural_slot mask (bucketAt data (wrap_next capacity bucket)).key) &&
                decide (natural_slot mask (bucketAt data (wrap_next capacity bucket)).key <
                  wrap_next capacity bucket)
              else decide (natural_slot mask (bucketAt data (wrap_next capacity bucket)).key <
                  wrap_next capacity bucket) ||
                decide (deleted <
                  natural_slot mask (bucketAt data (wrap_next capacity bucket)).key)) = true := by
            unfold OnWalk at hon
            split_ifs with hlt
            · simp only [Bool.and_eq_true, decide_eq_true_eq]
              omega
            · simp only [Bool.or_eq_true, decide_eq_true_eq]
              omega
          rw [if_neg c1, if_pos c2]
          exact hrec
    · simp only [Bool.not_eq_true] at hp
      simp only [hp, Bool.not_false, if_true]
      exact ⟨data, rfl, hl, compacting_exit h hm hp, h.unique, rfl, fun _ _ => Iff.rfl⟩

theorem Inv.capacity_ge {t : HashTable V} (h : Inv t) : 8 ≤ t._capacity := by
  obtain ⟨n, hn, hc⟩ := h.capacity_pow
  rw [hc]
  calc 8 = 2 ^ 3 := by norm_num
    _ ≤ 2 ^ n := Nat.pow_le_pow_right (by norm_num) hn

theorem Inv.mask_lt {t : HashTable V} (h : Inv t) : t._mask < t._capacity := by
  have := h.capacity_ge
  have := h.mask_eq
  omega

theorem Inv.count_lt {t : HashTable V} (h : Inv t) : t._count < t._capacity := by
  have := h.capacity_ge
  have := h.load
  omega

theorem Inv.has_empty {t : HashTable V} (h : Inv t) :
    ∃ e, e < t._capacity ∧ (bucketAt t._data e).present = false := by
  have := exists_empty t._data (by rw [← h.count_eq, h.length_eq]; exact h.count_lt)
  rwa [h.length_eq] at this

theorem not_present_replicate (n a : Nat) :
    ¬ (bucketAt (List.replicate n (zero_bucket : Bucket V)) a).present = true := by
  rw [bucketAt_replicate]
  simp [zero_bucket]

theorem inv_new : Inv (new : HashTable V) := by
  refine ⟨by simp [new, allocate], rfl, ⟨3, le_refl _, rfl⟩, ?_, by simp [new], ?_, ?_⟩
  · simp [new, allocate, present_count, zero_bucket, List.countP_replicate]
  · intro a _ hp
    exact absurd hp (not_present_replicate 8 a)
  · intro a _ _ _ hp
    exact absurd hp (not_present_replicate 8 a)

theorem not_holds_replicate (n capacity key : Nat) (value : V) :
    ¬ Holds (List.replicate n (zero_bucket : Bucket V)) capacity key value := by
  rintro ⟨a, _, hp, _⟩
  exact absurd hp (not_present_replicate n a)

theorem inv_clear {t : HashTable V} (h : Inv t) : Inv (clear t) := by
  refine ⟨by simp [clear], h.mask_eq, h.capacity_pow, ?_, by simp [clear], ?_, ?_⟩
  · simp [clear, present_count, zero_bucket, List.countP_replicate]
  · intro a _ hp
    exact absurd hp (not_present_replicate _ a)
  · intro a _ _ _ hp
    exact absurd hp (not_present_replicate _ a)

theorem get_total {t : HashTable V} (h : Inv t) (key : Nat) : ∃ o, get t key = some o := by
  obtain ⟨r, hr⟩ := find_bucket_total t._data key h.mask_lt h.contiguous h.unique h.has_empty
  unfold get
  rw [hr]
  exact ⟨_, rfl⟩

theorem get_holds {t : HashTable V} (h : Inv t) (key : Nat) (value : V) :
    get t key = some (some value) ↔ Holds t._data t._capacity key value := by
  obtain ⟨r, hr⟩ := find_bucket_total t._data key h.mask_lt h.contiguous h.unique h.has_empty
  obtain ⟨hlt, hst, _⟩ := find_bucket_sound t._data h.mask_lt hr
  unfold get
  rw [hr]
  simp only [Option.some.injEq]
  constructor
  · intro hg
    split_ifs at hg with hc
    simp only [Bool.and_eq_true, beq_iff_eq] at hc
    exact ⟨r, hlt, hc.1, hc.2, Option.some.inj hg⟩
  · rintro ⟨a, ha, hpa, hka, hva⟩
    have := find_bucket_present t._data h.mask_lt h.contiguous h.unique ha hpa
    rw [hka, hr] at this
    have hra : r = a := Option.some.inj this
    subst hra
    simp [hpa, hka, hva]

theorem get_congr {t t' : HashTable V} (h : Inv t) (h' : Inv t') (key : Nat)
    (hh : ∀ value, Holds t'._data t'._capacity key value ↔ Holds t._data t._capacity key value) :
    get t' key = get t key := by
  obtain ⟨o, ho⟩ := get_total h key
  obtain ⟨o', ho'⟩ := get_total h' key
  rw [ho, ho']
  cases o with
  | some v =>
    have := (get_holds h' key v).mpr ((hh v).mpr ((get_holds h key v).mp ho))
    rw [ho'] at this
    exact this
  | none =>
    cases o' with
    | none => rfl
    | some v' =>
      have := (get_holds h key v').mpr ((hh v').mp ((get_holds h' key v').mp ho'))
      rw [ho] at this
      exact absurd this (by simp)

theorem holds_iff_mem (d : List (Bucket V)) (key : Nat) (value : V) :
    Holds d d.length key value ↔
      ∃ b, b ∈ d ∧ b.present = true ∧ b.key = key ∧ b.value = value := by
  constructor
  · rintro ⟨a, ha, hp, hk, hv⟩
    rw [bucketAt_eq_getElem d a ha] at hp hk hv
    exact ⟨d[a], List.getElem_mem ha, hp, hk, hv⟩
  · rintro ⟨b, hb, hp, hk, hv⟩
    obtain ⟨a, ha, rfl⟩ := List.getElem_of_mem hb
    refine ⟨a, ha, ?_⟩
    rw [bucketAt_eq_getElem d a ha]
    exact ⟨hp, hk, hv⟩

theorem maybe_resize_spec {t : HashTable V} (h : Inv t) :
    ∃ t1, maybe_resize t = some t1 ∧ Inv t1 ∧ t1._count = t._count ∧
      t1._capacity = (if t._count * 100 / t._capacity > 60 then t._capacity * 2
        else t._capacity) ∧
      t1._count * 100 < 61 * t1._capacity ∧
      ∀ key value, Holds t1._data t1._capacity key value ↔
        Holds t._data t._capacity key value := by
  have hcap := h.capacity_ge
  unfold maybe_resize
  by_cases hc : t._count * 100 / t._capacity > 60
  · simp only [hc, if_true]
    have hu : UniqueKeys t._data t._data.length := by rw [h.length_eq]; exact h.unique
    have hcnt := h.count_eq
    have hlt := h.count_lt
    obtain ⟨nd', h1, h2, h3, h4, h5, h6⟩ :=
      maybe_resize_loop_spec (t._capacity * 2) (t._capacity * 2 - 1) (by omega)
        t._data (allocate (t._capacity * 2)) (by simp [allocate])
        (fun a _ hp => absurd hp (not_present_replicate _ a))
        (fun a _ _ _ hp => absurd hp (not_present_replicate _ a))
        (by
          have : present_count (allocate (t._capacity * 2) : List (Bucket V)) = 0 := by
            simp [allocate, present_count, zero_bucket, List.countP_replicate]
          omega)
        (uniqueKeys_distinct t._data hu)
        (fun _ _ _ a _ hp => absurd hp (not_present_replicate _ a))
    rw [h1]
    have hz : present_count (allocate (t._capacity * 2) : List (Bucket V)) = 0 := by
      simp [allocate, present_count, zero_bucket, List.countP_replicate]
    refine ⟨_, rfl, ⟨h2, rfl, ?_, ?_, ?_, h3, h4⟩, rfl, rfl, ?_, ?_⟩
    · obtain ⟨n, hn, hpow⟩ := h.capacity_pow
      exact ⟨n + 1, by omega, by simp only [hpow, pow_succ]⟩
    · simp only [h5, hz, hcnt, zero_add]
    · have := h.load
      simp only
      omega
    · have := h.load
      simp only
      omega
    · intro key value
      simp only
      rw [h6]
      have := holds_iff_mem t._data key value
      rw [h.length_eq] at this
      rw [this]
      constructor
      · rintro (hh | hh)
        · exact absurd hh (not_holds_replicate _ _ _ _)
        · exact hh
      · exact Or.inr
  · simp only [hc, if_false]
    refine ⟨t, rfl, h, rfl, rfl, ?_, fun _ _ => Iff.rfl⟩
    have : t._count * 100 / t._capacity < 61 := by omega
    rw [Nat.div_lt_iff_lt_mul (by omega)] at this
    exact this

theorem emplace_eq {t t1 : HashTable V} {key r : Nat} (h1 : maybe_resize t = some t1)
    (hr : find_bucket t1._data t1._capacity t1._mask key = some r) (hlt : r < t1._data.length) :
    emplace t key = some
      ({ t1 with
          _count := t1._count + (if (bucketAt t1._data r).present then 0 else 1)
          _data := t1._data.set r
            { key := key, value := (bucketAt t1._data r).value, present := true } }, r) := by
  unfold emplace
  rw [h1]
  simp only
  rw [hr]
  simp only
  by_cases hp : (bucketAt t1._data r).present = true
  · simp [hp]
  · simp only [Bool.not_eq_true] at hp
    simp [hp, bucketAt_set_eq _ _ _ hlt, List.set_set]

theorem set_eq {t t1 : HashTable V} {key r : Nat} (value : V) (h1 : maybe_resize t = some t1)
    (hr : find_bucket t1._data t1._capacity t1._mask key = some r) (hlt : r < t1._data.length) :
    set t key value = some
      { t1 with
          _count := t1._count + (if (bucketAt t1._data r).present then 0 else 1)
          _data := t1._data.set r { key := key, value := value, present := true } } := by
  unfold set
  rw [emplace_eq h1 hr hlt]
  simp [bucketAt_set_eq _ _ _ hlt, List.set_set]

theorem present_iff_holds {t : HashTable V} (h : Inv t) {key r : Nat}
    (hr : find_bucket t._data t._capacity t._mask key = some r) :
    (bucketAt t._data r).present = true ↔ ∃ value, Holds t._data t._capacity key value := by
  obtain ⟨hlt, hst, _⟩ := find_bucket_sound t._data h.mask_lt hr
  constructor
  · intro hp
    exact ⟨_, r, hlt, hp, hst hp, rfl⟩
  · rintro ⟨v, a, ha, hpa, hka, _⟩
    have := find_bucket_present t._data h.mask_lt h.contiguous h.unique ha hpa
    rw [hka, hr] at this
    rw [Option.some.inj this]
    exact hpa

theorem holds_value_eq {t : HashTable V} (h : Inv t) {key r : Nat} {value : V}
    (hr : find_bucket t._data t._capacity t._mask key = some r)
    (hh : Holds t._data t._capacity key value) : (bucketAt t._data r).value = value := by
  obtain ⟨a, ha, hpa, hka, hva⟩ := hh
  have := find_bucket_present t._data h.mask_lt h.contiguous h.unique ha hpa
  rw [hka, hr] at this
  rw [Option.some.inj this]
  exact hva

theorem inv_insert {t : HashTable V} (h : Inv t) (hload : t._count * 100 < 61 * t._capacity)
    {r : Nat} (bk : Bucket V)
    (hr : find_bucket t._data t._capacity t._mask bk.key = some r) (hp : bk.present = true) :
    Inv { t with
      _count := t._count + (if (bucketAt t._data r).present then 0 else 1)
      _data := t._data.set r bk } := by
  obtain ⟨hlt, _, _⟩ := find_bucket_sound t._data h.mask_lt hr
  refine ⟨by simp [h.length_eq], h.mask_eq, h.capacity_pow, ?_, ?_,
    insert_contiguous t._data bk h.length_eq h.mask_lt h.contiguous hr hp,
    insert_uniqueKeys t._data bk h.length_eq h.mask_lt h.contiguous h.unique hr⟩
  · simp only
    rw [insert_present_count t._data bk (by rw [h.length_eq]; exact hlt) hp, h.count_eq]
  · simp only
    split_ifs <;> omega

theorem emplace_spec {t : HashTable V} (h : Inv t) (key : Nat) :
    ∃ t' i, emplace t key = some (t', i) ∧ Inv t' ∧
      t'._capacity = (if t._count * 100 / t._capacity > 60 then t._capacity * 2
        else t._capacity) ∧
      t._count * 100 < 61 * t'._capacity ∧
      i < t'._capacity ∧ (bucketAt t'._data i).present = true ∧
      (bucketAt t'._data i).key = key ∧
      (∀ k v, Holds t'._data t'._capacity k v ↔
        (k = key ∧ v = (bucketAt t'._data i).value) ∨
          (k ≠ key ∧ Holds t._data t._capacity k v)) ∧
      (∀ v, Holds t._data t._capacity key v →
        t'._count = t._count ∧ (bucketAt t'._data i).value = v) ∧
      ((∀ v, ¬ Holds t._data t._capacity key v) → t'._count = t._count + 1) := by
  obtain ⟨t1, h1, hinv, hcount, hcap, hload, hholds⟩ := maybe_resize_spec h
  obtain ⟨r, hr⟩ := find_bucket_total t1._data key hinv.mask_lt hinv.contiguous hinv.unique
    hinv.has_empty
  obtain ⟨hlt, hst, _⟩ := find_bucket_sound t1._data hinv.mask_lt hr
  have hlen : r < t1._data.length := by rw [hinv.length_eq]; exact hlt
  have hpi := present_iff_holds hinv hr
  refine ⟨_, r, emplace_eq h1 hr hlen, ?_, hcap, hcount ▸ hload, hlt, ?_, ?_, ?_, ?_, ?_⟩
  · exact inv_insert hinv hload
      { key := key, value := (bucketAt t1._data r).value, present := true } hr rfl
  · simp only [bucketAt_set_eq _ _ _ hlen]
  · simp only [bucketAt_set_eq _ _ _ hlen]
  · intro k v
    simp only [bucketAt_set_eq _ _ _ hlen]
    rw [insert_holds t1._data
      { key := key, value := (bucketAt t1._data r).value, present := true }
      hinv.length_eq hinv.mask_lt hinv.contiguous hinv.unique hr rfl k v, hholds]
  · intro v hv
    have hv1 := (hholds key v).mpr hv
    have hp : (bucketAt t1._data r).present = true := hpi.mpr ⟨v, hv1⟩
    simp only [bucketAt_set_eq _ _ _ hlen, hp, if_true]
    exact ⟨by omega, holds_value_eq hinv hr hv1⟩
  · intro hno
    have hp : ¬ (bucketAt t1._data r).present = true := by
      intro hp
      obtain ⟨v, hv⟩ := hpi.mp hp
      exact hno v ((hholds key v).mp hv)
    simp only [hp, Bool.false_eq_true, if_false]
    omega

theorem set_spec {t : HashTable V} (h : Inv t) (key : Nat) (value : V) :
    ∃ t', set t key value = some t' ∧ Inv t' ∧
      t'._capacity = (if t._count * 100 / t._capacity > 60 then t._capacity * 2
        else t._capacity) ∧
      t._count * 100 < 61 * t'._capacity ∧
      (∀ k v, Holds t'._data t'._capacity k v ↔
        (k = key ∧ v = value) ∨ (k ≠ key ∧ Holds t._data t._capacity k v)) ∧
      ((∃ v, Holds t._data t._capacity key v) → t'._count = t._count) ∧
      ((∀ v, ¬ Holds t._data t._capacity key v) → t'._count = t._count + 1) := by
  obtain ⟨t1, h1, hinv, hcount, hcap, hload, hholds⟩ := maybe_resize_spec h
  obtain ⟨r, hr⟩ := find_bucket_total t1._data key hinv.mask_lt hinv.contiguous hinv.unique
    hinv.has_empty
  obtain ⟨hlt, hst, _⟩ := find_bucket_sound t1._data hinv.mask_lt hr
  have hlen : r < t1._data.length := by rw [hinv.length_eq]; exact hlt
  have hpi := present_iff_holds hinv hr
  refine ⟨_, set_eq value h1 hr hlen, ?_, hcap, hcount ▸ hload, ?_, ?_, ?_⟩
  · exact inv_insert hinv hload { key := key, value := value, present := true } hr rfl
  · intro k v
    rw [insert_holds t1._data { key := key, value := value, present := true }
      hinv.length_eq hinv.mask_lt hinv.contiguous hinv.unique hr rfl k v, hholds]
  · rintro ⟨v, hv⟩
    have hp : (bucketAt t1._data r).present = true := hpi.mpr ⟨v, (hholds key v).mpr hv⟩
    simp only [hp, if_true]
    omega
  · intro hno
    have hp : ¬ (bucketAt t1._data r).present = true := by
      intro hp
      obtain ⟨v, hv⟩ := hpi.mp hp
      exact hno v ((hholds key v).mp hv)
    simp only [hp, Bool.false_eq_true, if_false]
    omega

theorem compacting_start {t : HashTable V} (h : Inv t) {r : Nat} (hr : r < t._capacity)
    (b : Bucket V) (hb : b.present = false) :
    Compacting (t._data.set r b) t._capacity t._mask r r := by
  have hlen : r < t._data.length := by rw [h.length_eq]; exact hr
  have hat : ∀ a, (bucketAt (t._data.set r b) a).present = true →
      a ≠ r ∧ bucketAt (t._data.set r b) a = bucketAt t._data a := by
    intro a hpa
    have hne : r ≠ a := by
      rintro rfl
      rw [bucketAt_set_eq _ _ _ hlen, hb] at hpa
      exact absurd hpa (by simp)
    exact ⟨Ne.symm hne, bucketAt_set_ne _ _ hne⟩
  refine ⟨by simp [h.length_eq], hr, hr, by rw [bucketAt_set_eq _ _ _ hlen]; exact hb,
    ?_, ?_, ?_⟩
  · intro s _ hau
    unfold AfterUpTo at hau
    omega
  · intro a ha hpa s hs hon
    obtain ⟨_, hea⟩ := hat a hpa
    rw [hea] at hpa hon
    by_cases hsr : s = r
    · exact Or.inr hsr
    · left
      rw [bucketAt_set_ne _ _ (Ne.symm hsr)]
      exact h.contiguous a ha hpa s hs hon
  · intro a c ha hc hpa hpc hk
    obtain ⟨_, hea⟩ := hat a hpa
    obtain ⟨_, hec⟩ := hat c hpc
    rw [hea] at hpa hk
    rw [hec] at hpc hk
    exact h.unique a c ha hc hpa hpc hk

theorem remove_spec {t : HashTable V} (h : Inv t) (key : Nat) :
    ∃ t', remove t key = some t' ∧ Inv t' ∧ t'._capacity = t._capacity ∧
      t'._mask = t._mask ∧
      (∀ k v, Holds t'._data t'._capacity k v ↔ k ≠ key ∧ Holds t._data t._capacity k v) ∧
      ((∃ v, Holds t._data t._capacity key v) → t'._count + 1 = t._count) ∧
      ((∀ v, ¬ Holds t._data t._capacity key v) → t' = t) := by
  obtain ⟨r, hr⟩ := find_bucket_total t._data key h.mask_lt h.contiguous h.unique h.has_empty
  obtain ⟨hlt, hst, _⟩ := find_bucket_sound t._data h.mask_lt hr
  have hlen : r < t._data.length := by rw [h.length_eq]; exact hlt
  have hpi := present_iff_holds h hr
  unfold remove
  rw [hr]
  simp only
  by_cases hp : (bucketAt t._data r).present = true
  · simp only [hp, Bool.not_true, Bool.false_eq_true, if_false]
    have hkey : (bucketAt t._data r).key = key := hst hp
    have hstart := compacting_start h hlt { bucketAt t._data r with present := false } rfl
    obtain ⟨e, he, hpe⟩ := h.has_empty
    have her : e ≠ r := by
      rintro rfl
      rw [hpe] at hp
      exact absurd hp (by simp)
    obtain ⟨data', h1, h2, h3, h4, h5, h6⟩ :=
      remove_loop_spec t._capacity t._mask h.mask_lt t._capacity _ r r hstart
        ⟨e, he, her, her, by rw [bucketAt_set_ne _ _ (Ne.symm her)]; exact hpe, by
          unfold steps_to
          split_ifs <;> omega⟩
    rw [h1]
    have hpc := present_count_set t._data r { bucketAt t._data r with present := false } hlen
    simp only [hp, if_true, Bool.false_eq_true, if_false] at hpc
    have hcnt := h.count_eq
    have hload := h.load
    dsimp only at hpc h5 h6
    refine ⟨_, rfl, ⟨h2, h.mask_eq, h.capacity_pow, ?_, ?_, h3, h4⟩, rfl, rfl, ?_, ?_, ?_⟩
    · simp only
      omega
    · simp only
      omega
    · intro k v
      simp only
      rw [h6]
      constructor
      · rintro ⟨a, ha, hpa, hka, hva⟩
        have hne : r ≠ a := by
          rintro rfl
          rw [bucketAt_set_eq _ _ _ hlen] at hpa
          exact absurd hpa (by simp)
        rw [bucketAt_set_ne _ _ hne] at hpa hka hva
        refine ⟨?_, a, ha, hpa, hka, hva⟩
        rintro rfl
        exact hne (h.unique r a hlt ha hp hpa (by rw [hkey, hka]))
      · rintro ⟨hk, a, ha, hpa, hka, hva⟩
        have hne : r ≠ a := by
          rintro rfl
          exact hk (by rw [← hka, hkey])
        refine ⟨a, ha, ?_⟩
        rw [bucketAt_set_ne _ _ hne]
        exact ⟨hpa, hka, hva⟩
    · intro _
      simp only
      omega
    · intro hno
      obtain ⟨v, hv⟩ := hpi.mp hp
      exact absurd hv (hno v)
  · simp only [Bool.not_eq_true] at hp
    simp only [hp, Bool.not_false, if_true]
    have hno : ∀ v, ¬ Holds t._data t._capacity key v := by
      intro v hv
      have := hpi.mpr ⟨v, hv⟩
      rw [hp] at this
      exact absurd this (by simp)
    refine ⟨t, rfl, h, rfl, rfl, ?_, ?_, fun _ => rfl⟩
    · intro k v
      constructor
      · intro hh
        refine ⟨?_, hh⟩
        rintro rfl
        exact hno v hh
      · exact fun hh => hh.2
    · rintro ⟨v, hv⟩
      exact absurd hv (hno v)

theorem step_spec {t : HashTable V} (h : Inv t) (op : Op V) :
    ∃ t', step t op = some t' ∧ Inv t' := by
  cases op with
  | set key value =>
    obtain ⟨t', h1, h2, _⟩ := set_spec h key value
    exact ⟨t', h1, h2⟩
  | emplace key =>
    obtain ⟨t', i, h1, h2, _⟩ := emplace_spec h key
    exact ⟨t', by simp [step, h1], h2⟩
  | remove key =>
    obtain ⟨t', h1, h2, _⟩ := remove_spec h key
    exact ⟨t', h1, h2⟩
  | clear => exact ⟨clear t, rfl, inv_clear h⟩

theorem run_spec (ops : List (Op V)) :
    ∀ {t : HashTable V}, Inv t → ∃ t', run ops t = some t' ∧ Inv t' := by
  induction ops with
  | nil => intro t h; exact ⟨t, rfl, h⟩
  | cons op ops ih =>
    intro t h
    obtain ⟨t1, h1, hi1⟩ := step_spec h op
    obtain ⟨t2, h2, hi2⟩ := ih hi1
    exact ⟨t2, by simp [run, h1, h2], hi2⟩

theorem reachable_inv {t : HashTable V} (h : Reachable t) : Inv t := by
  obtain ⟨ops, hops⟩ := h
  obtain ⟨t', h1, h2⟩ := run_spec ops (inv_new : Inv (new : HashTable V))
  rw [hops] at h1
  rw [Option.some.inj h1]
  exact h2

theorem run_append (ops ops' : List (Op V)) (t : HashTable V) :
    run (ops ++ ops') t = (run ops t).bind (run ops') := by
  induction ops generalizing t with
  | nil => rfl
  | cons op ops ih =>
    simp only [List.cons_append, run]
    cases step t op with
    | none => rfl
    | some t1 => exact ih t1

theorem reachable_run {t t' : HashTable V} (h : Reachable t) (ops : List (Op V))
    (hr : run ops t = some t') : Reachable t' := by
  obtain ⟨ops0, h0⟩ := h
  exact ⟨ops0 ++ ops, by rw [run_append, h0]; exact hr⟩

theorem run_avoids (key : Nat) (value : V) (ops : List (Op V)) :
    ∀ {t : HashTable V}, Inv t → Holds t._data t._capacity key value →
      (∀ op, op ∈ ops → Op.avoids key op) →
      ∃ t', run ops t = some t' ∧ Inv t' ∧ Holds t'._data t'._capacity key value := by
  induction ops with
  | nil => intro t h hh _; exact ⟨t, rfl, h, hh⟩
  | cons op ops ih =>
    intro t h hh hav
    have hop := hav op (List.mem_cons_self _ _)
    have hrest : ∀ o, o ∈ ops → Op.avoids key o := fun o ho => hav o (List.mem_cons_of_mem _ ho)
    cases op with
    | set k v =>
      obtain ⟨t1, h1, hi1, _, _, hh1, _⟩ := set_spec h k v
      obtain ⟨t2, h2, hi2, hh2⟩ := ih hi1 ((hh1 key value).mpr (Or.inr ⟨Ne.symm hop, hh⟩)) hrest
      exact ⟨t2, by simp [run, step, h1, h2], hi2, hh2⟩
    | remove k =>
      obtain ⟨t1, h1, hi1, _, _, hh1, _⟩ := remove_spec h k
      obtain ⟨t2, h2, hi2, hh2⟩ := ih hi1 ((hh1 key value).mpr ⟨Ne.symm hop, hh⟩) hrest
      exact ⟨t2, by simp [run, step, h1, h2], hi2, hh2⟩
    | emplace k => exact absurd hop (by simp [Op.avoids])
    | clear => exact absurd hop (by simp [Op.avoids])

theorem walk_mod {capacity n a j : Nat} (hn : n < capacity) (ha : a < capacity)
    (hj : j < (a + capacity - n) % capacity) :
    (n + j) % capacity < capacity ∧ OnWalk n ((n + j) % capacity) a := by
  have hlt : (n + j) % capacity < capacity := Nat.mod_lt _ (by omega)
  refine ⟨hlt, ?_⟩
  by_cases hna : n ≤ a
  · have e1 : a + capacity - n = (a - n) + capacity := by omega
    rw [e1, Nat.add_mod_right, Nat.mod_eq_of_lt (by omega)] at hj
    rw [Nat.mod_eq_of_lt (by omega)]
    unfold OnWalk
    omega
  · rw [Nat.mod_eq_of_lt (by omega)] at hj
    by_cases hw : n + j < capacity
    · rw [Nat.mod_eq_of_lt hw]
      unfold OnWalk
      omega
    · rw [Nat.mod_eq_sub_mod (by omega), Nat.mod_eq_of_lt (by omega)]
      unfold OnWalk
      omega

/-- C1 (round trip): on every reachable table `set(key, value)` returns, `get(key)`
right after it returns `value`, and after any further sequence of `set(k', _)`
and `remove(k')` calls with `k' ≠ key`, all of which return, `get(key)` still
returns `value`. -/
theorem get_after_set (t : HashTable V) (key : Nat) (value : V) (h : Reachable t) :
    ∃ t1, set t key value = some t1 ∧ get t1 key = some (some value) ∧
      ∀ ops : List (Op V), (∀ op, op ∈ ops → Op.avoids key op) →
        ∃ t2, run ops t1 = some t2 ∧ get t2 key = some (some value) := by
  obtain ⟨t1, h1, hi1, _, _, hh1, _⟩ := set_spec (reachable_inv h) key value
  have hk : Holds t1._data t1._capacity key value := (hh1 key value).mpr (Or.inl ⟨rfl, rfl⟩)
  refine ⟨t1, h1, (get_holds hi1 key value).mpr hk, ?_⟩
  intro ops hav
  obtain ⟨t2, h2, hi2, hh2⟩ := run_avoids key value ops hi1 hk hav
  exact ⟨t2, h2, (get_holds hi2 key value).mpr hh2⟩

theorem get_after_set_witness :
    Reachable (after five_ops) ∧
      ∃ t1, set (after five_ops) 6 60 = some t1 ∧ get t1 6 = some (some 60) ∧
        ∀ ops : List (Op Nat), (∀ op, op ∈ ops → Op.avoids 6 op) →
          ∃ t2, run ops t1 = some t2 ∧ get t2 6 = some (some 60) :=
  ⟨⟨five_ops, by decide⟩, get_after_set (after five_ops) 6 60 ⟨five_ops, by decide⟩⟩

/-- C2 (deletion correctness): on every reachable table and for keys
`k1 ≠ k2`, `remove(k1)` returns and `get(k2)` after it equals `get(k2)` before
it. -/
theorem get_after_remove_other (t : HashTable V) (k1 k2 : Nat) (h : Reachable t)
    (hne : k1 ≠ k2) :
    ∃ t', remove t k1 = some t' ∧ get t' k2 = get t k2 := by
  have hi := reachable_inv h
  obtain ⟨t', h1, hi', _, _, hh, _⟩ := remove_spec hi k1
  refine ⟨t', h1, get_congr hi hi' k2 ?_⟩
  intro v
  rw [hh]
  exact ⟨fun x => x.2, fun x => ⟨Ne.symm hne, x⟩⟩

theorem get_after_remove_other_witness :
    Reachable (after chain_ops) ∧ 5 ≠ 10 ∧
      [4, 5, 10].map (fun k => split_mix_64 k &&& (after chain_ops)._mask) = [2, 2, 2] ∧
      find_bucket (after chain_ops)._data 8 7 10 = some 4 ∧
      get (after chain_ops) 10 = some (some 100) ∧
      (remove (after chain_ops) 5).bind (fun t' => find_bucket t'._data 8 7 10) = some 3 ∧
      ∃ t', remove (after chain_ops) 5 = some t' ∧ get t' 10 = get (after chain_ops) 10 :=
  ⟨⟨chain_ops, by decide⟩, by decide, by decide, by decide, by decide, by decide,
    get_after_remove_other (after chain_ops) 5 10 ⟨chain_ops, by decide⟩ (by decide)⟩

/-- C3: on every reachable table `remove(key)` returns and `get(key)` right
after it returns not-found, whether or not `key` was present. -/
theorem get_after_remove (t : HashTable V) (key : Nat) (h : Reachable t) :
    ∃ t', remove t key = some t' ∧ get t' key = some none := by
  have hi := reachable_inv h
  obtain ⟨t', h1, hi', _, _, hh, _⟩ := remove_spec hi key
  refine ⟨t', h1, ?_⟩
  obtain ⟨o, ho⟩ := get_total hi' key
  cases o with
  | none => exact ho
  | some v =>
    have := (hh key v).mp ((get_holds hi' key v).mp ho)
    exact absurd rfl this.1

theorem get_after_remove_witness :
    Reachable (after scattered_ops) ∧
      (remove (after scattered_ops) 2).bind (fun t' => get t' 1) = some (some 10) ∧
      (remove (after scattered_ops) 2).bind (fun t' => get t' 3) = some (some 30) ∧
      ∃ t', remove (after scattered_ops) 2 = some t' ∧ get t' 2 = some none :=
  ⟨⟨scattered_ops, by decide⟩, by decide, by decide,
    get_after_remove (after scattered_ops) 2 ⟨scattered_ops, by decide⟩⟩

/-- C4 (insert leaves other keys alone): on every reachable table and for
keys `key ≠ key'`, `set(key, value)` returns and `get(key')` after it equals
`get(key')` before it, also when the call doubles the capacity. -/
theorem get_after_set_other (t : HashTable V) (key key' : Nat) (value : V)
    (h : Reachable t) (hne : key ≠ key') :
    ∃ t', set t key value = some t' ∧ get t' key' = get t key' := by
  have hi := reachable_inv h
  obtain ⟨t', h1, hi', _, _, hh, _⟩ := set_spec hi key value
  refine ⟨t', h1, get_congr hi hi' key' ?_⟩
  intro v
  rw [hh]
  constructor
  · rintro (⟨hk, _⟩ | ⟨_, hv⟩)
    · exact absurd hk.symm hne
    · exact hv
  · exact fun hv => Or.inr ⟨Ne.symm hne, hv⟩

theorem get_after_set_other_witness :
    Reachable (after five_ops) ∧ 6 ≠ 3 ∧
      (after five_ops)._capacity = 8 ∧
      (set (after five_ops) 6 60).map (fun t' => t'._capacity) = some 16 ∧
      get (after five_ops) 3 = some (some 30) ∧
      ∃ t', set (after five_ops) 6 60 = some t' ∧ get t' 3 = get (after five_ops) 3 :=
  ⟨⟨five_ops, by decide⟩, by decide, by decide, by decide, by decide,
    get_after_set_other (after five_ops) 6 3 60 ⟨five_ops, by decide⟩ (by decide)⟩

/-- C5 (probe-sequence contiguity): in every reachable table, for every
present bucket at index `a` with key `k` and `n = split_mix_64(k) & mask`,
every slot `(n + j) mod capacity` on the wrap-around walk from `n` up to, not
including, `a` (that is `j < (a - n) mod capacity`) is present. -/
theorem contiguity (t : HashTable V) (h : Reachable t) (a : Nat) (ha : a < t._capacity)
    (hp : (bucketAt t._data a).present = true) (j : Nat)
    (hj : j < (a + t._capacity - (split_mix_64 (bucketAt t._data a).key &&& t._mask))
      % t._capacity) :
    (bucketAt t._data
      (((split_mix_64 (bucketAt t._data a).key &&& t._mask) + j) % t._capacity)).present
      = true := by
  have hi := reachable_inv h
  have hn := natural_slot_lt hi.mask_lt (bucketAt t._data a).key
  obtain ⟨h1, h2⟩ := walk_mod hn ha hj
  exact hi.contiguous a ha hp _ h1 h2

theorem contiguity_witness :
    [0, 7, 13].map (fun k => split_mix_64 k &&& 7) = [7, 7, 7] ∧
      [7, 0, 1].map (fun a => (bucketAt (after wrapping_ops)._data a).key) = [0, 7, 13] ∧
      Reachable (after (wrapping_ops ++ [Op.remove 0])) ∧
      [7, 0, 1].map (fun a => ((bucketAt (after (wrapping_ops ++ [Op.remove 0]))._data a).key,
        (bucketAt (after (wrapping_ops ++ [Op.remove 0]))._data a).present)) =
        [(7, true), (13, true), (13, false)] ∧
      (bucketAt (after (wrapping_ops ++ [Op.remove 0]))._data
        (((split_mix_64 (bucketAt (after (wrapping_ops ++ [Op.remove 0]))._data 0).key &&&
          (after (wrapping_ops ++ [Op.remove 0]))._mask) + 0) %
          (after (wrapping_ops ++ [Op.remove 0]))._capacity)).present = true :=
  ⟨by decide, by decide, ⟨wrapping_ops ++ [Op.remove 0], by decide⟩, by decide,
    contiguity (after (wrapping_ops ++ [Op.remove 0]))
      ⟨wrapping_ops ++ [Op.remove 0], by decide⟩ 0 (by decide) (by decide) 0 (by decide)⟩

/-- C6 (key uniqueness): in every reachable table two present buckets that
hold the same key are the same bucket. -/
theorem key_uniqueness (t : HashTable V) (h : Reachable t) (a b : Nat)
    (ha : a < t._capacity) (hb : b < t._capacity)
    (hpa : (bucketAt t._data a).present = true) (hpb : (bucketAt t._data b).present = true)
    (hk : (bucketAt t._data a).key = (bucketAt t._data b).key) : a = b :=
  (reachable_inv h).unique a b ha hb hpa hpb hk

theorem key_uniqueness_witness :
    Reachable (after chain_ops) ∧ (bucketAt (after chain_ops)._data 3).present = true ∧
      (bucketAt (after chain_ops)._data 3).key = 5 ∧ 3 = 3 :=
  ⟨⟨chain_ops, by decide⟩, by decide, by decide,
    key_uniqueness (after chain_ops) ⟨chain_ops, by decide⟩ 3 3 (by decide) (by decide)
      (by decide) (by decide) rfl⟩

/-- C7 (count consistency): in every reachable table the bucket array has
length `capacity` and `count()` is the number of its buckets whose present
flag is set. -/
theorem count_consistency (t : HashTable V) (h : Reachable t) :
    t._data.length = t._capacity ∧
      count t = (t._data.filter (fun b => b.present)).length := by
  have hi := reachable_inv h
  refine ⟨hi.length_eq, ?_⟩
  unfold count
  rw [hi.count_eq, present_count, List.countP_eq_length_filter]

theorem count_consistency_witness :
    Reachable (after five_ops) ∧ count (after five_ops) = 5 ∧
      (after five_ops)._data.length = (after five_ops)._capacity ∧
      count (after five_ops) = ((after five_ops)._data.filter (fun b => b.present)).length :=
  ⟨⟨five_ops, by decide⟩, by decide, count_consistency (after five_ops) ⟨five_ops, by decide⟩⟩

/-- C8, as amended (load bound): on every reachable table `emplace(key)` and
`set(key, value)` return; with `n` the count before the call and the capacity
after it, `n * 100 / capacity ≤ 60`, the count after the call is at most
`n + 1`, and so `(count - 1) * 100 / capacity ≤ 60` after the call. -/
theorem load_after_insert (t : HashTable V) (key : Nat) (value : V) (h : Reachable t) :
    (∃ t' i, emplace t key = some (t', i) ∧ t._count * 100 / t'._capacity ≤ 60 ∧
      t'._count ≤ t._count + 1 ∧ (t'._count - 1) * 100 / t'._capacity ≤ 60) ∧
    (∃ t', set t key value = some t' ∧ t._count * 100 / t'._capacity ≤ 60 ∧
      t'._count ≤ t._count + 1 ∧ (t'._count - 1) * 100 / t'._capacity ≤ 60) := by
  have hi := reachable_inv h
  have key_fact : ∀ t' : HashTable V, Inv t' → t._count * 100 < 61 * t'._capacity →
      t'._count ≤ t._count + 1 →
      t._count * 100 / t'._capacity ≤ 60 ∧ t'._count ≤ t._count + 1 ∧
        (t'._count - 1) * 100 / t'._capacity ≤ 60 := by
    intro t' hi' hl hc
    have hcap := hi'.capacity_ge
    refine ⟨?_, hc, ?_⟩
    · have : t._count * 100 / t'._capacity < 61 := by
        rw [Nat.div_lt_iff_lt_mul (by omega)]
        exact hl
      omega
    · have : (t'._count - 1) * 100 / t'._capacity < 61 := by
        rw [Nat.div_lt_iff_lt_mul (by omega)]
        omega
      omega
  constructor
  · obtain ⟨t', i, h1, hi', _, hl, _, _, _, _, hc1, hc2⟩ := emplace_spec hi key
    refine ⟨t', i, h1, key_fact t' hi' hl ?_⟩
    by_cases hex : ∃ v, Holds t._data t._capacity key v
    · obtain ⟨v, hv⟩ := hex
      have := (hc1 v hv).1
      omega
    · push_neg at hex
      have := hc2 hex
      omega
  · obtain ⟨t', h1, hi', _, hl, _, hc1, hc2⟩ := set_spec hi key value
    refine ⟨t', h1, key_fact t' hi' hl ?_⟩
    by_cases hex : ∃ v, Holds t._data t._capacity key v
    · have := hc1 hex
      omega
    · push_neg at hex
      have := hc2 hex
      omega

theorem load_after_insert_witness :
    Reachable (after four_ops) ∧
      (set (after four_ops) 5 50).map (fun t' => (t'._count, t'._capacity)) = some (5, 8) ∧
      (set (after five_ops) 6 60).map (fun t' => (t'._count, t'._capacity)) = some (6, 16) ∧
      (∃ t' i, emplace (after four_ops) 5 = some (t', i) ∧
        (after four_ops)._count * 100 / t'._capacity ≤ 60 ∧
        t'._count ≤ (after four_ops)._count + 1 ∧
        (t'._count - 1) * 100 / t'._capacity ≤ 60) ∧
      (∃ t', set (after four_ops) 5 50 = some t' ∧
        (after four_ops)._count * 100 / t'._capacity ≤ 60 ∧
        t'._count ≤ (after four_ops)._count + 1 ∧
        (t'._count - 1) * 100 / t'._capacity ≤ 60) :=
  ⟨⟨four_ops, by decide⟩, by decide, by decide,
    load_after_insert (after four_ops) 5 50 ⟨four_ops, by decide⟩⟩

/-- C8, as stated, fails: the fifth `set` of a distinct key on a fresh table
leaves count 5 and capacity 8, and `5 * 100 / 8 = 62 > 60`; no resize has
happened. -/
theorem load_bound_counterexample :
    Reachable (after four_ops) ∧
      (set (after four_ops) 5 50).map
        (fun t' => (t'._count, t'._capacity, t'._count * 100 / t'._capacity)) =
        some (5, 8, 62) ∧
      ¬ (∀ (t t' : HashTable Nat) (key value : Nat), Reachable t →
          set t key value = some t' → t'._count * 100 / t'._capacity ≤ 60) := by
  refine ⟨⟨four_ops, by decide⟩, by decide, ?_⟩
  intro hall
  have := hall (after four_ops) (after five_ops) 5 50 ⟨four_ops, by decide⟩ (by decide)
  revert this
  decide

/-- C9 (exact growth policy): on every reachable table with capacity `c` and
count `n`, `emplace(key)` and `set(key, value)` return with capacity `2 * c`
if `n * 100 / c > 60` and with capacity `c` otherwise, whether or not `key` is
present. -/
theorem growth_policy (t : HashTable V) (key : Nat) (value : V) (h : Reachable t) :
    (∃ t' i, emplace t key = some (t', i) ∧
      t'._capacity = if t._count * 100 / t._capacity > 60 then 2 * t._capacity
        else t._capacity) ∧
    (∃ t', set t key value = some t' ∧
      t'._capacity = if t._count * 100 / t._capacity > 60 then 2 * t._capacity
        else t._capacity) := by
  have hi := reachable_inv h
  constructor
  · obtain ⟨t', i, h1, _, hc, _⟩ := emplace_spec hi key
    exact ⟨t', i, h1, by rw [hc]; split_ifs <;> omega⟩
  · obtain ⟨t', h1, _, hc, _⟩ := set_spec hi key value
    exact ⟨t', h1, by rw [hc]; split_ifs <;> omega⟩

theorem growth_policy_witness :
    Reachable (after five_ops) ∧
      ((after five_ops)._count, (after five_ops)._capacity) = (5, 8) ∧
      get (after five_ops) 1 = some (some 10) ∧
      (set (after five_ops) 1 11).map (fun t' => (t'._count, t'._capacity)) = some (5, 16) ∧
      (∃ t' i, emplace (after five_ops) 1 = some (t', i) ∧
        t'._capacity = if (after five_ops)._count * 100 / (after five_ops)._capacity > 60
          then 2 * (after five_ops)._capacity else (after five_ops)._capacity) ∧
      (∃ t', set (after five_ops) 1 11 = some t' ∧
        t'._capacity = if (after five_ops)._count * 100 / (after five_ops)._capacity > 60
          then 2 * (after five_ops)._capacity else (after five_ops)._capacity) :=
  ⟨⟨five_ops, by decide⟩, by decide, by decide, by decide,
    growth_policy (after five_ops) 1 11 ⟨five_ops, by decide⟩⟩

/-- C10 (`clear`): on every reachable table, after `clear()` the count is 0,
`get(key)` returns not-found for every key, and capacity and mask are
unchanged. -/
theorem clear_resets (t : HashTable V) (h : Reachable t) :
    count (clear t) = 0 ∧ (∀ key, get (clear t) key = some none) ∧
      (clear t)._capacity = t._capacity ∧ (clear t)._mask = t._mask := by
  have hi := inv_clear (reachable_inv h)
  refine ⟨rfl, ?_, rfl, rfl⟩
  intro key
  obtain ⟨o, ho⟩ := get_total hi key
  cases o with
  | none => exact ho
  | some v =>
    exact absurd ((get_holds hi key v).mp ho) (not_holds_replicate _ _ _ _)

theorem clear_resets_witness :
    Reachable (after five_ops) ∧ get (after five_ops) 3 = some (some 30) ∧
      count (clear (after five_ops)) = 0 ∧
      (∀ key, get (clear (after five_ops)) key = some none) ∧
      (clear (after five_ops))._capacity = (after five_ops)._capacity ∧
      (clear (after five_ops))._mask = (after five_ops)._mask :=
  ⟨⟨five_ops, by decide⟩, by decide, clear_resets (after five_ops) ⟨five_ops, by decide⟩⟩

theorem get_none_iff {t : HashTable V} (h : Inv t) (key : Nat) :
    get t key = some none ↔ ∀ v, ¬ Holds t._data t._capacity key v := by
  obtain ⟨o, ho⟩ := get_total h key
  constructor
  · intro hg v hv
    have := (get_holds h key v).mpr hv
    rw [hg] at this
    exact absurd this (by simp)
  · intro hno
    cases o with
    | none => exact ho
    | some v => exact absurd ((get_holds h key v).mp ho) (hno v)

/-- C11 (`remove` of an absent key): on every reachable table, if `get(key)`
is not-found then `remove(key)` returns the table unchanged in every field,
and in any case `remove(key)` applied to the result of `remove(key)` returns
that result unchanged. -/
theorem remove_idempotent (t : HashTable V) (key : Nat) (h : Reachable t) :
    (get t key = some none → remove t key = some t) ∧
      ∃ t', remove t key = some t' ∧ remove t' key = some t' := by
  have hi := reachable_inv h
  obtain ⟨t', h1, hi', _, _, hh, _, hsame⟩ := remove_spec hi key
  constructor
  · intro hg
    rw [h1, hsame ((get_none_iff hi key).mp hg)]
  · refine ⟨t', h1, ?_⟩
    obtain ⟨t'', h2, _, _, _, _, _, hsame'⟩ := remove_spec hi' key
    rw [h2, hsame' (fun v hv => ((hh key v).mp hv).1 rfl)]

theorem remove_idempotent_witness :
    Reachable (after scattered_ops) ∧ get (after scattered_ops) 2 = some (some 20) ∧
      remove (after scattered_ops) 2 ≠ some (after scattered_ops) ∧
      (remove (after scattered_ops) 2).bind (fun t' => remove t' 2) =
        remove (after scattered_ops) 2 ∧
      get (after scattered_ops) 9 = some none ∧
      (get (after scattered_ops) 9 = some none →
        remove (after scattered_ops) 9 = some (after scattered_ops)) ∧
      ∃ t', remove (after scattered_ops) 9 = some t' ∧ remove t' 9 = some t' :=
  ⟨⟨scattered_ops, by decide⟩, by decide, by decide, by decide, by decide,
    remove_idempotent (after scattered_ops) 9 ⟨scattered_ops, by decide⟩⟩

/-- C12 (capacity shape): a fresh table has capacity 8 and count 0; in every
reachable table the capacity is a power of two and `mask = capacity - 1`; no
call lowers the capacity, and `remove` and `clear` leave it unchanged (`get`
is a function of the table alone and returns no new table). -/
theorem capacity_shape (t : HashTable V) (h : Reachable t) :
    ((new : HashTable V)._capacity = 8 ∧ count (new : HashTable V) = 0) ∧
      (∃ n, t._capacity = 2 ^ n) ∧ t._mask = t._capacity - 1 ∧
      (∀ op : Op V, ∃ t', step t op = some t' ∧ t._capacity ≤ t'._capacity) ∧
      (∀ key, ∃ t', remove t key = some t' ∧ t'._capacity = t._capacity) ∧
      (clear t)._capacity = t._capacity := by
  have hi := reachable_inv h
  refine ⟨⟨rfl, rfl⟩, ?_, hi.mask_eq, ?_, ?_, rfl⟩
  · obtain ⟨n, _, hn⟩ := hi.capacity_pow
    exact ⟨n, hn⟩
  · intro op
    cases op with
    | set key value =>
      obtain ⟨t', h1, _, hc, _⟩ := set_spec hi key value
      exact ⟨t', h1, by rw [hc]; split_ifs <;> omega⟩
    | emplace key =>
      obtain ⟨t', i, h1, _, hc, _⟩ := emplace_spec hi key
      exact ⟨t', by simp [step, h1], by rw [hc]; split_ifs <;> omega⟩
    | remove key =>
      obtain ⟨t', h1, _, hc, _⟩ := remove_spec hi key
      exact ⟨t', h1, by omega⟩
    | clear => exact ⟨clear t, rfl, le_refl _⟩
  · intro key
    obtain ⟨t', h1, _, hc, _⟩ := remove_spec hi key
    exact ⟨t', h1, hc⟩

theorem capacity_shape_witness :
    Reachable (after (five_ops ++ [Op.set 6 60])) ∧
      ((after (five_ops ++ [Op.set 6 60]))._capacity,
        (after (five_ops ++ [Op.set 6 60]))._mask) = (16, 15) ∧
      ((new : HashTable Nat)._capacity = 8 ∧ count (new : HashTable Nat) = 0) ∧
      (∃ n, (after (five_ops ++ [Op.set 6 60]))._capacity = 2 ^ n) ∧
      (after (five_ops ++ [Op.set 6 60]))._mask =
        (after (five_ops ++ [Op.set 6 60]))._capacity - 1 ∧
      (∀ op : Op Nat, ∃ t', step (after (five_ops ++ [Op.set 6 60])) op = some t' ∧
        (after (five_ops ++ [Op.set 6 60]))._capacity ≤ t'._capacity) ∧
      (∀ key, ∃ t', remove (after (five_ops ++ [Op.set 6 60])) key = some t' ∧
        t'._capacity = (after (five_ops ++ [Op.set 6 60]))._capacity) ∧
      (clear (after (five_ops ++ [Op.set 6 60])))._capacity =
        (after (five_ops ++ [Op.set 6 60]))._capacity :=
  ⟨⟨five_ops ++ [Op.set 6 60], by decide⟩, by decide,
    capacity_shape (after (five_ops ++ [Op.set 6 60])) ⟨five_ops ++ [Op.set 6 60], by decide⟩⟩

theorem stored_keys_nodup (d : List (Bucket V)) (h : DistinctKeys d) :
    (stored_keys d).Nodup := by
  unfold stored_keys DistinctKeys at *
  rw [List.Nodup, List.pairwise_map]
  refine List.Pairwise.imp_of_mem ?_ (List.Pairwise.filter _ h)
  intro a b ha hb hab
  exact hab (List.mem_filter.mp ha).2 (List.mem_filter.mp hb).2

theorem stored_keys_length (d : List (Bucket V)) :
    (stored_keys d).length = present_count d := by
  simp [stored_keys, present_count, List.countP_eq_length_filter]

theorem mem_stored_keys (d : List (Bucket V)) (key : Nat) :
    key ∈ stored_keys d ↔ ∃ v, Holds d d.length key v := by
  unfold stored_keys
  simp only [List.mem_map, List.mem_filter]
  constructor
  · rintro ⟨b, ⟨hb, hp⟩, hk⟩
    exact ⟨b.value, (holds_iff_mem d key b.value).mpr ⟨b, hb, hp, hk, rfl⟩⟩
  · rintro ⟨v, hv⟩
    obtain ⟨b, hb, hp, hk, _⟩ := (holds_iff_mem d key v).mp hv
    exact ⟨b, ⟨hb, hp⟩, hk⟩

/-- C13 (count tracks the stored keys): on every reachable table, `emplace`
and `set` of a key for which `get` is not-found raise `count()` by exactly 1
and `remove` of it leaves `count()` unchanged; `emplace` and `set` of a key
for which `get` succeeds leave `count()` unchanged and `remove` of it lowers
`count()` by exactly 1; and `count()` is the number of distinct keys for which
`get` succeeds. -/
theorem count_tracks_keys (t : HashTable V) (key : Nat) (h : Reachable t) :
    (get t key = some none →
      (∃ t' i, emplace t key = some (t', i) ∧ count t' = count t + 1) ∧
      (∀ value, ∃ t', set t key value = some t' ∧ count t' = count t + 1) ∧
      (∃ t', remove t key = some t' ∧ count t' = count t)) ∧
    (∀ v, get t key = some (some v) →
      (∃ t' i, emplace t key = some (t', i) ∧ count t' = count t) ∧
      (∀ value, ∃ t', set t key value = some t' ∧ count t' = count t) ∧
      (∃ t', remove t key = some t' ∧ count t' + 1 = count t)) ∧
    (∃ keys : List Nat, keys.Nodup ∧ keys.length = count t ∧
      ∀ k, k ∈ keys ↔ ∃ v, get t k = some (some v)) := by
  have hi := reachable_inv h
  refine ⟨?_, ?_, ?_⟩
  · intro hg
    have hno := (get_none_iff hi key).mp hg
    refine ⟨?_, ?_, ?_⟩
    · obtain ⟨t', i, h1, _, _, _, _, _, _, _, _, hc⟩ := emplace_spec hi key
      exact ⟨t', i, h1, hc hno⟩
    · intro value
      obtain ⟨t', h1, _, _, _, _, _, hc⟩ := set_spec hi key value
      exact ⟨t', h1, hc hno⟩
    · obtain ⟨t', h1, _, _, _, _, _, hsame⟩ := remove_spec hi key
      exact ⟨t', h1, by rw [hsame hno]⟩
  · intro v hg
    have hv := (get_holds hi key v).mp hg
    refine ⟨?_, ?_, ?_⟩
    · obtain ⟨t', i, h1, _, _, _, _, _, _, _, hc, _⟩ := emplace_spec hi key
      exact ⟨t', i, h1, (hc v hv).1⟩
    · intro value
      obtain ⟨t', h1, _, _, _, _, hc, _⟩ := set_spec hi key value
      exact ⟨t', h1, hc ⟨v, hv⟩⟩
    · obtain ⟨t', h1, _, _, _, _, hc, _⟩ := remove_spec hi key
      exact ⟨t', h1, hc ⟨v, hv⟩⟩
  · refine ⟨stored_keys t._data, ?_, ?_, ?_⟩
    · apply stored_keys_nodup
      apply uniqueKeys_distinct
      rw [hi.length_eq]
      exact hi.unique
    · rw [stored_keys_length]
      exact hi.count_eq.symm
    · intro k
      rw [mem_stored_keys, hi.length_eq]
      constructor
      · rintro ⟨v, hv⟩
        exact ⟨v, (get_holds hi k v).mpr hv⟩
      · rintro ⟨v, hv⟩
        exact ⟨v, (get_holds hi k v).mp hv⟩

theorem count_tracks_keys_witness :
    Reachable (after five_ops) ∧ count (after five_ops) = 5 ∧
      get (after five_ops) 6 = some none ∧ get (after five_ops) 3 = some (some 30) ∧
      (set (after five_ops) 6 60).map count = some 6 ∧
      (set (after five_ops) 3 31).map count = some 5 ∧
      (remove (after five_ops) 6).map count = some 5 ∧
      (remove (after five_ops) 3).map count = some 4 ∧
      (get (after five_ops) 3 = some none →
        (∃ t' i, emplace (after five_ops) 3 = some (t', i) ∧
          count t' = count (after five_ops) + 1) ∧
        (∀ value, ∃ t', set (after five_ops) 3 value = some t' ∧
          count t' = count (after five_ops) + 1) ∧
        (∃ t', remove (after five_ops) 3 = some t' ∧ count t' = count (after five_ops))) ∧
      (∀ v, get (after five_ops) 3 = some (some v) →
        (∃ t' i, emplace (after five_ops) 3 = some (t', i) ∧
          count t' = count (after five_ops)) ∧
        (∀ value, ∃ t', set (after five_ops) 3 value = some t' ∧
          count t' = count (after five_ops)) ∧
        (∃ t', remove (after five_ops) 3 = some t' ∧ count t' + 1 = count (after five_ops))) ∧
      (∃ keys : List Nat, keys.Nodup ∧ keys.length = count (after five_ops) ∧
        ∀ k, k ∈ keys ↔ ∃ v, get (after five_ops) k = some (some v)) :=
  ⟨⟨five_ops, by decide⟩, by decide, by decide, by decide, by decide, by decide, by decide,
    by decide, count_tracks_keys (after five_ops) 3 ⟨five_ops, by decide⟩⟩

/-- C14 (`emplace` locates a present key): on every reachable table in which
`get(key)` returns `v`, `emplace(key)` returns a reference to a bucket whose
value is `v`; afterwards `get(key)` returns `v`, `count()` is unchanged and
`get(k)` is unchanged for every other key `k`, also when the call resizes. -/
theorem emplace_locates (t : HashTable V) (key : Nat) (v : V) (h : Reachable t)
    (hg : get t key = some (some v)) :
    ∃ t' i, emplace t key = some (t', i) ∧ (bucketAt t'._data i).value = v ∧
      get t' key = some (some v) ∧ count t' = count t ∧
      ∀ k, k ≠ key → get t' k = get t k := by
  have hi := reachable_inv h
  have hv := (get_holds hi key v).mp hg
  obtain ⟨t', i, h1, hi', _, _, _, _, _, hh, hc, _⟩ := emplace_spec hi key
  obtain ⟨hcount, hval⟩ := hc v hv
  refine ⟨t', i, h1, hval, ?_, hcount, ?_⟩
  · rw [get_holds hi', hh]
    exact Or.inl ⟨rfl, hval.symm⟩
  · intro k hk
    apply get_congr hi hi'
    intro w
    rw [hh]
    constructor
    · rintro (⟨hk', _⟩ | ⟨_, hw⟩)
      · exact absurd hk' hk
      · exact hw
    · exact fun hw => Or.inr ⟨hk, hw⟩

theorem emplace_locates_witness :
    Reachable (after five_ops) ∧ get (after five_ops) 3 = some (some 30) ∧
      (after five_ops)._capacity = 8 ∧
      (emplace (after five_ops) 3).map (fun r => (r.1._capacity, r.2)) = some (16, 13) ∧
      ∃ t' i, emplace (after five_ops) 3 = some (t', i) ∧ (bucketAt t'._data i).value = 30 ∧
        get t' 3 = some (some 30) ∧ count t' = count (after five_ops) ∧
        ∀ k, k ≠ 3 → get t' k = get (after five_ops) k :=
  ⟨⟨five_ops, by decide⟩, by decide, by decide, by decide,
    emplace_locates (after five_ops) 3 30 ⟨five_ops, by decide⟩ (by decide)⟩

theorem cyclic_sub {capacity x n : Nat} (hx : x < capacity) (hn : n < capacity) :
    (x + capacity - n) % capacity = if n ≤ x then x - n else x + capacity - n := by
  split_ifs with h
  · have e : x + capacity - n = (x - n) + capacity := by omega
    rw [e, Nat.add_mod_right, Nat.mod_eq_of_lt (by omega)]
  · rw [Nat.mod_eq_of_lt (by omega)]

theorem onWalk_iff_mod {capacity n s a : Nat} (hn : n < capacity) (hs : s < capacity)
    (ha : a < capacity) :
    OnWalk n s a ↔ (s + capacity - n) % capacity < (a + capacity - n) % capacity := by
  rw [cyclic_sub hs hn, cyclic_sub ha hn]
  unfold OnWalk
  split_ifs <;> omega

theorem remove_loop_step (capacity mask fuel : Nat) (data : List (Bucket V))
    (deleted bucket : Nat)
    (hp : (bucketAt data (wrap_next capacity bucket)).present = true) :
    (OnWalk (natural_slot mask (bucketAt data (wrap_next capacity bucket)).key) deleted
        (wrap_next capacity bucket) →
      remove_loop capacity mask (fuel + 1) data deleted bucket =
        remove_loop capacity mask fuel
          (move_bucket data deleted (wrap_next capacity bucket))
          (wrap_next capacity bucket) (wrap_next capacity bucket)) ∧
    (¬ OnWalk (natural_slot mask (bucketAt data (wrap_next capacity bucket)).key) deleted
        (wrap_next capacity bucket) →
      remove_loop capacity mask (fuel + 1) data deleted bucket =
        remove_loop capacity mask fuel data deleted (wrap_next capacity bucket)) := by
  have hnat : split_mix_64 (bucketAt data (wrap_next capacity bucket)).key &&& mask =
      natural_slot mask (bucketAt data (wrap_next capacity bucket)).key := rfl
  constructor
  · intro hon
    conv_lhs => unfold remove_loop
    simp only [hp, Bool.not_true, Bool.false_eq_true, if_false, hnat]
    generalize natural_slot mask (bucketAt data (wrap_next capacity bucket)).key = N at hon ⊢
    generalize wrap_next capacity bucket = B at hon ⊢
    have c1 : ¬ N = B := by unfold OnWalk at hon; omega
    have c2 : ¬ ((if deleted < B then decide (deleted < N) && decide (N < B)
        else decide (N < B) || decide (deleted < N)) = true) := by
      unfold OnWalk at hon
      split_ifs with hlt
      · simp only [Bool.and_eq_true, decide_eq_true_eq]; omega
      · simp only [Bool.or_eq_true, decide_eq_true_eq]; omega
    rw [if_neg c1, if_neg c2]
    rfl
  · intro hon
    conv_lhs => unfold remove_loop
    simp only [hp, Bool.not_true, Bool.false_eq_true, if_false, hnat]
    generalize natural_slot mask (bucketAt data (wrap_next capacity bucket)).key = N at hon ⊢
    generalize wrap_next capacity bucket = B at hon ⊢
    by_cases c1 : N = B
    · rw [if_pos c1]
    · have c2 : (if deleted < B then decide (deleted < N) && decide (N < B)
          else decide (N < B) || decide (deleted < N)) = true := by
        unfold OnWalk at hon
        split_ifs with hlt
        · simp only [Bool.and_eq_true, decide_eq_true_eq]; omega
        · simp only [Bool.or_eq_true, decide_eq_true_eq]; omega
      rw [if_neg c1, if_pos c2]

/-- C16, as stated, fails: with the vacancy at `D = 7`, the scanned bucket at
`B = 1` and its natural slot `N = 0` (so `B < D`, `N ≠ B` and not
`B < N < D`) the statement has the bucket moved into `D`, and the loop leaves
it in place: `remove(0)` keeps key 29 in slot 1. -/
theorem wrapped_rule_counterexample :
    1 = wrap_next 8 0 ∧ 1 < 7 ∧
      split_mix_64 (bucketAt ((after low_chain_ops)._data.set 7
        { bucketAt (after low_chain_ops)._data 7 with present := false }) 1).key &&& 7 = 0 ∧
      (bucketAt ((after low_chain_ops)._data.set 7
        { bucketAt (after low_chain_ops)._data 7 with present := false }) 1).present = true ∧
      ¬ (1 < 0 ∧ 0 < 7) ∧
      remove_loop 8 7 (6 + 1) ((after low_chain_ops)._data.set 7
          { bucketAt (after low_chain_ops)._data 7 with present := false }) 7 0 =
        remove_loop 8 7 6 ((after low_chain_ops)._data.set 7
          { bucketAt (after low_chain_ops)._data 7 with present := false }) 7 1 ∧
      remove_loop 8 7 (6 + 1) ((after low_chain_ops)._data.set 7
          { bucketAt (after low_chain_ops)._data 7 with present := false }) 7 0 ≠
        remove_loop 8 7 6 (move_bucket ((after low_chain_ops)._data.set 7
          { bucketAt (after low_chain_ops)._data 7 with present := false }) 7 1) 1 1 ∧
      Reachable (after low_chain_ops) ∧
      (remove (after low_chain_ops) 0).map (fun t' => (bucketAt t'._data 1,
        (bucketAt t'._data 7).present)) =
        some ({ key := 29, value := 290, present := true }, false) := by
  refine ⟨by decide, by decide, by decide, by decide, by decide, by decide, by decide,
    ⟨low_chain_ops, by decide⟩, by decide⟩

theorem add_steps_to_mod {capacity n r : Nat} (hn : n < capacity) (hr : r < capacity) :
    (n + steps_to capacity n r) % capacity = r := by
  unfold steps_to
  split_ifs with h
  · rw [show n + (r - n) = r by omega, Nat.mod_eq_of_lt hr]
  · rw [show n + (r + capacity - n) = r + capacity by omega, Nat.add_mod_right,
      Nat.mod_eq_of_lt hr]

/-- C17 (`find_bucket` returns the first stopping slot): on a bucket array
with at least one empty slot among its `capacity` slots, and with
`mask < capacity`, `find_bucket` returns the
slot `(n + j) mod capacity`, where `n = split_mix_64(key) & mask` and `j` is
the least number of steps after which the slot is empty or holds `key`: that
slot is empty or holds `key`, and every slot `(n + i) mod capacity` with
`i < j` is present with a different key. -/
theorem find_bucket_first_stop (data : List (Bucket V)) (capacity mask key : Nat)
    (hm : mask < capacity)
    (he : ∃ e, e < capacity ∧ (bucketAt data e).present = false) :
    ∃ j, j < capacity ∧
      find_bucket data capacity mask key =
        some (((split_mix_64 key &&& mask) + j) % capacity) ∧
      ((bucketAt data (((split_mix_64 key &&& mask) + j) % capacity)).present = false ∨
        (bucketAt data (((split_mix_64 key &&& mask) + j) % capacity)).key = key) ∧
      ∀ i, i < j →
        (bucketAt data (((split_mix_64 key &&& mask) + i) % capacity)).present = true ∧
        (bucketAt data (((split_mix_64 key &&& mask) + i) % capacity)).key ≠ key := by
  obtain ⟨e, he, hpe⟩ := he
  have hn : natural_slot mask key < capacity := natural_slot_lt hm key
  have hst : Stops data key e := by
    intro h
    rw [hpe] at h
    exact absurd h (by simp)
  obtain ⟨r, hr⟩ := find_bucket_loop_complete data capacity key capacity
    (natural_slot mask key) e hn he hst (by unfold steps_to; split_ifs <;> omega)
  have hr' : find_bucket data capacity mask key = some r := hr
  obtain ⟨h1, h2, h3⟩ := find_bucket_sound data hm hr'
  have hmod := add_steps_to_mod hn h1
  have hsteps : steps_to capacity (natural_slot mask key) r =
      (r + capacity - natural_slot mask key) % capacity := by
    rw [cyclic_sub h1 hn]
    rfl
  refine ⟨steps_to capacity (natural_slot mask key) r, ?_, ?_, ?_, ?_⟩
  · unfold steps_to
    split_ifs <;> omega
  · show find_bucket data capacity mask key =
      some ((natural_slot mask key + steps_to capacity (natural_slot mask key) r) % capacity)
    rw [hmod, hr']
  · show (bucketAt data ((natural_slot mask key +
        steps_to capacity (natural_slot mask key) r) % capacity)).present = false ∨
      (bucketAt data ((natural_slot mask key +
        steps_to capacity (natural_slot mask key) r) % capacity)).key = key
    rw [hmod]
    by_cases hp : (bucketAt data r).present = true
    · exact Or.inr (h2 hp)
    · left
      simpa using hp
  · intro i hi
    rw [hsteps] at hi
    obtain ⟨hlt, hon⟩ := walk_mod hn h1 hi
    exact h3 _ hlt hon

theorem find_bucket_first_stop_witness :
    (after chain_ops)._data.length = 8 ∧ 7 < 8 ∧
      (∃ e, e < 8 ∧ (bucketAt (after chain_ops)._data e).present = false) ∧
      split_mix_64 10 &&& 7 = 2 ∧
      find_bucket (after chain_ops)._data 8 7 10 = some ((2 + 2) % 8) ∧
      find_bucket (after chain_ops)._data 8 7 31 = some ((2 + 3) % 8) ∧
      ∃ j, j < 8 ∧
        find_bucket (after chain_ops)._data 8 7 10 = some (((split_mix_64 10 &&& 7) + j) % 8) ∧
        ((bucketAt (after chain_ops)._data (((split_mix_64 10 &&& 7) + j) % 8)).present = false ∨
          (bucketAt (after chain_ops)._data (((split_mix_64 10 &&& 7) + j) % 8)).key = 10) ∧
        ∀ i, i < j →
          (bucketAt (after chain_ops)._data (((split_mix_64 10 &&& 7) + i) % 8)).present = true ∧
          (bucketAt (after chain_ops)._data (((split_mix_64 10 &&& 7) + i) % 8)).key ≠ 10 :=
  ⟨by decide, by decide, ⟨0, by decide, by decide⟩, by decide, by decide, by decide,
    find_bucket_first_stop (after chain_ops)._data 8 7 10 (by decide)
      ⟨0, by decide, by decide⟩⟩

/-- C18 (probe termination): every reachable table has `count() < capacity`
and so an empty slot; for every key the loop of `find_bucket` stops within
`capacity` iterations, in `get`, `emplace` and `remove`, which all return, and
on the array of the table `maybe_resize` leaves, whose rehash returns too. -/
theorem probe_terminates (t : HashTable V) (key : Nat) (h : Reachable t) :
    count t < t._capacity ∧
      (∃ e, e < t._capacity ∧ (bucketAt t._data e).present = false) ∧
      (∃ r, r < t._capacity ∧
        find_bucket_loop t._data t._capacity key t._capacity (split_mix_64 key &&& t._mask) =
          some r) ∧
      (∃ o, get t key = some o) ∧ (∃ t' i, emplace t key = some (t', i)) ∧
      (∃ t', remove t key = some t') ∧
      (∃ t1, maybe_resize t = some t1 ∧
        ∃ r, r < t1._capacity ∧
          find_bucket_loop t1._data t1._capacity key t1._capacity
            (split_mix_64 key &&& t1._mask) = some r) := by
  have hi := reachable_inv h
  have total : ∀ {u : HashTable V}, Inv u → ∃ r, r < u._capacity ∧
      find_bucket_loop u._data u._capacity key u._capacity (split_mix_64 key &&& u._mask) =
        some r := by
    intro u hu
    obtain ⟨r, hr⟩ := find_bucket_total u._data key hu.mask_lt hu.contiguous hu.unique
      hu.has_empty
    exact ⟨r, (find_bucket_sound u._data hu.mask_lt hr).1, hr⟩
  refine ⟨hi.count_lt, hi.has_empty, total hi, get_total hi key, ?_, ?_, ?_⟩
  · obtain ⟨t', i, h1, _⟩ := emplace_spec hi key
    exact ⟨t', i, h1⟩
  · obtain ⟨t', h1, _⟩ := remove_spec hi key
    exact ⟨t', h1⟩
  · obtain ⟨t1, h1, hi1, _⟩ := maybe_resize_spec hi
    exact ⟨t1, h1, total hi1⟩

theorem probe_terminates_witness :
    Reachable (after five_ops) ∧
      (maybe_resize (after five_ops)).map (fun t1 => t1._capacity) = some 16 ∧
      find_bucket_loop (after five_ops)._data 8 10 8 (split_mix_64 10 &&& 7) = some 4 ∧
      find_bucket_loop (after five_ops)._data 8 10 2 (split_mix_64 10 &&& 7) = none ∧
      count (after five_ops) < (after five_ops)._capacity ∧
      (∃ e, e < (after five_ops)._capacity ∧
        (bucketAt (after five_ops)._data e).present = false) ∧
      (∃ r, r < (after five_ops)._capacity ∧
        find_bucket_loop (after five_ops)._data (after five_ops)._capacity 10
          (after five_ops)._capacity (split_mix_64 10 &&& (after five_ops)._mask) = some r) ∧
      (∃ o, get (after five_ops) 10 = some o) ∧
      (∃ t' i, emplace (after five_ops) 10 = some (t', i)) ∧
      (∃ t', remove (after five_ops) 10 = some t') ∧
      (∃ t1, maybe_resize (after five_ops) = some t1 ∧
        ∃ r, r < t1._capacity ∧
          find_bucket_loop t1._data t1._capacity 10 t1._capacity
            (split_mix_64 10 &&& t1._mask) = some r) :=
  ⟨⟨five_ops, by decide⟩, by decide, by decide, by decide,
    probe_terminates (after five_ops) 10 ⟨five_ops, by decide⟩⟩

theorem remove_loop_break (capacity mask fuel : Nat) (data : List (Bucket V))
    (deleted bucket : Nat)
    (hp : (bucketAt data (wrap_next capacity bucket)).present = false) :
    remove_loop capacity mask (fuel + 1) data deleted bucket = some data := by
  conv_lhs => unfold remove_loop
  simp only [hp, Bool.not_false, if_true]

theorem remove_loop_succ (capacity mask : Nat) :
    ∀ (fuel : Nat) (data : List (Bucket V)) (deleted bucket : Nat) (x : List (Bucket V)),
      remove_loop capacity mask fuel data deleted bucket = some x →
      remove_loop capacity mask (fuel + 1) data deleted bucket = some x := by
  intro fuel
  induction fuel with
  | zero => intro data deleted bucket x h; simp [remove_loop] at h
  | succ n ih =>
    intro data deleted bucket x h
    by_cases hp : (bucketAt data (wrap_next capacity bucket)).present = true
    · obtain ⟨h1, h2⟩ := remove_loop_step capacity mask n data deleted bucket hp
      obtain ⟨h1', h2'⟩ := remove_loop_step capacity mask (n + 1) data deleted bucket hp
      by_cases hon : OnWalk (natural_slot mask (bucketAt data (wrap_next capacity bucket)).key)
          deleted (wrap_next capacity bucket)
      · rw [h1 hon] at h
        rw [h1' hon]
        exact ih _ _ _ x h
      · rw [h2 hon] at h
        rw [h2' hon]
        exact ih _ _ _ x h
    · simp only [Bool.not_eq_true] at hp
      rw [remove_loop_break capacity mask n data deleted bucket hp] at h
      rw [remove_loop_break capacity mask (n + 1) data deleted bucket hp]
      exact h

theorem remove_loop_mono (capacity mask : Nat) {fuel fuel' : Nat} {data : List (Bucket V)}
    {deleted bucket : Nat} {x : List (Bucket V)} (hle : fuel ≤ fuel')
    (h : remove_loop capacity mask fuel data deleted bucket = some x) :
    remove_loop capacity mask fuel' data deleted bucket = some x := by
  induction hle with
  | refl => exact h
  | step _ ih => exact remove_loop_succ capacity mask _ data deleted bucket x ih

theorem remove_loop_none (capacity mask : Nat) :
    ∀ (fuel : Nat) (data : List (Bucket V)) (deleted bucket e : Nat),
      data.length = capacity → deleted < capacity → bucket < capacity → e < capacity →
      (bucketAt data deleted).present = false →
      (∀ s, s < capacity → s ≠ e → AfterUpTo bucket s e → (bucketAt data s).present = true) →
      fuel < steps_to capacity bucket e →
      remove_loop capacity mask fuel data deleted bucket = none := by
  intro fuel
  induction fuel with
  | zero => intros; rfl
  | succ n ih =>
    intro data deleted bucket e hl hD hb he hv hall hfuel
    have hw := wrap_next_cases capacity bucket
    have hB : wrap_next capacity bucket < capacity := by omega
    have hBe : wrap_next capacity bucket ≠ e := by
      unfold steps_to at hfuel
      split_ifs at hfuel <;> omega
    have hbe : bucket ≠ e := by
      unfold steps_to at hfuel
      split_ifs at hfuel <;> omega
    have hp : (bucketAt data (wrap_next capacity bucket)).present = true := by
      apply hall _ hB hBe
      unfold steps_to at hfuel
      unfold AfterUpTo
      split_ifs at hfuel <;> omega
    have hst : n < steps_to capacity (wrap_next capacity bucket) e := by
      unfold steps_to at hfuel ⊢
      split_ifs at hfuel ⊢ <;> omega
    have hDB : deleted ≠ wrap_next capacity bucket := by
      intro hDB
      rw [← hDB, hv] at hp
      exact absurd hp (by simp)
    obtain ⟨h1, h2⟩ := remove_loop_step capacity mask n data deleted bucket hp
    by_cases hon : OnWalk (natural_slot mask (bucketAt data (wrap_next capacity bucket)).key)
        deleted (wrap_next capacity bucket)
    · rw [h1 hon]
      have hat := bucketAt_move_bucket data (by omega : deleted < data.length)
        (by omega : wrap_next capacity bucket < data.length) hDB
      apply ih _ _ _ e (by simp [move_bucket, hl]) hB hB he (by simp [hat]) _ hst
      intro s hs hse hau
      have hsB : s ≠ wrap_next capacity bucket := by
        unfold AfterUpTo at hau
        omega
      rw [hat, if_neg hsB]
      split_ifs
      · exact hp
      · apply hall s hs hse
        unfold AfterUpTo at hau ⊢
        omega
    · rw [h2 hon]
      apply ih _ _ _ e hl hD hB he hv _ hst
      intro s hs hse hau
      apply hall s hs hse
      unfold AfterUpTo at hau ⊢
      omega

theorem first_empty (data : List (Bucket V)) {capacity r : Nat} (hr : r < capacity)
    (hp : (bucketAt data r).present = true)
    (he : ∃ e, e < capacity ∧ (bucketAt data e).present = false) :
    ∃ e, e < capacity ∧ e ≠ r ∧ (bucketAt data e).present = false ∧
      ∀ s, s < capacity → s ≠ e → AfterUpTo r s e → (bucketAt data s).present = true := by
  classical
  have hex : ∃ j, ∃ e, e < capacity ∧ (bucketAt data e).present = false ∧
      steps_to capacity r e = j := by
    obtain ⟨e, he1, he2⟩ := he
    exact ⟨_, e, he1, he2, rfl⟩
  obtain ⟨e, he1, he2, he3⟩ := Nat.find_spec hex
  have hmin := fun m (hm : m < Nat.find hex) => Nat.find_min hex hm
  have her : e ≠ r := by
    rintro rfl
    rw [he2] at hp
    exact absurd hp (by simp)
  refine ⟨e, he1, her, he2, ?_⟩
  intro s hs hse hau
  by_contra hps
  simp only [Bool.not_eq_true] at hps
  apply hmin (steps_to capacity r s) _ ⟨s, hs, hps, rfl⟩
  rw [← he3]
  unfold AfterUpTo at hau
  unfold steps_to
  split_ifs <;> omega

theorem walk_after {capacity r e i : Nat} (hr : r < capacity) (he : e < capacity)
    (h1 : 1 ≤ i) (hi : i < steps_to capacity r e) :
    (r + i) % capacity < capacity ∧ (r + i) % capacity ≠ e ∧
      AfterUpTo r ((r + i) % capacity) e := by
  have hilt : i < capacity := by
    unfold steps_to at hi
    split_ifs at hi <;> omega
  by_cases hw : r + i < capacity
  · rw [Nat.mod_eq_of_lt hw]
    unfold steps_to at hi
    unfold AfterUpTo
    split_ifs at hi <;> omega
  · rw [Nat.mod_eq_sub_mod (by omega), Nat.mod_eq_of_lt (by omega)]
    unfold steps_to at hi
    unfold AfterUpTo
    split_ifs at hi <;> omega

/-- C19 (compaction termination): on every reachable table, when `remove(key)`
finds `key` present in bucket `r`, its `while (true)` loop stops, after
exactly `n` iterations with `1 ≤ n < capacity`, at the slot
`(r + n) mod capacity`, the first empty slot of the array after `r` on the
forward wrap-around scan; on less fuel than `n` the loop has not stopped, on
any fuel from `n` on it returns the same array, and `remove` returns. -/
theorem compaction_terminates (t : HashTable V) (key r : Nat) (h : Reachable t)
    (hr : find_bucket t._data t._capacity t._mask key = some r)
    (hp : (bucketAt t._data r).present = true) :
    ∃ n data', 1 ≤ n ∧ n < t._capacity ∧
      (bucketAt t._data ((r + n) % t._capacity)).present = false ∧
      (∀ i, 1 ≤ i → i < n → (bucketAt t._data ((r + i) % t._capacity)).present = true) ∧
      (∀ fuel, remove_loop t._capacity t._mask fuel
          (t._data.set r { bucketAt t._data r with present := false }) r r =
        if n ≤ fuel then some data' else none) ∧
      remove t key = some { t with _data := data', _count := t._count - 1 } := by
  have hi := reachable_inv h
  obtain ⟨hlt, _, _⟩ := find_bucket_sound t._data hi.mask_lt hr
  have hlen : r < t._data.length := by rw [hi.length_eq]; exact hlt
  obtain ⟨e, he, her, hpe, hfirst⟩ := first_empty t._data hlt hp hi.has_empty
  have hstart := compacting_start hi hlt { bucketAt t._data r with present := false } rfl
  have hn1 : 1 ≤ steps_to t._capacity r e := by
    unfold steps_to
    split_ifs <;> omega
  have hn2 : steps_to t._capacity r e < t._capacity := by
    unfold steps_to
    split_ifs <;> omega
  obtain ⟨data', h1, _⟩ :=
    remove_loop_spec t._capacity t._mask hi.mask_lt (steps_to t._capacity r e) _ r r hstart
      ⟨e, he, her, her, by rw [bucketAt_set_ne _ _ (Ne.symm her)]; exact hpe, le_refl _⟩
  refine ⟨steps_to t._capacity r e, data', hn1, hn2, ?_, ?_, ?_, ?_⟩
  · rw [add_steps_to_mod hlt he]
    exact hpe
  · intro i hi1 hi2
    obtain ⟨w1, w2, w3⟩ := walk_after hlt he hi1 hi2
    exact hfirst _ w1 w2 w3
  · intro fuel
    split_ifs with hf
    · exact remove_loop_mono t._capacity t._mask hf h1
    · apply remove_loop_none t._capacity t._mask fuel _ r r e (by simp [hi.length_eq]) hlt hlt he
        (by rw [bucketAt_set_eq _ _ _ hlen]) _ (by omega)
      intro s hs hse hau
      have hsr : r ≠ s := by
        unfold AfterUpTo at hau
        omega
      rw [bucketAt_set_ne _ _ hsr]
      exact hfirst s hs hse hau
  · have hcap := remove_loop_mono t._capacity t._mask (le_of_lt hn2) h1
    unfold remove
    rw [hr]
    simp only [hp, Bool.not_true, Bool.false_eq_true, if_false]
    dsimp only at hcap
    rw [hcap]

theorem compaction_terminates_witness :
    Reachable (after chain_ops) ∧ find_bucket (after chain_ops)._data 8 7 4 = some 2 ∧
      [2, 3, 4, 5].map (fun a => (bucketAt (after chain_ops)._data a).present) =
        [true, true, true, false] ∧
      [2, 3].map (fun fuel => (remove_loop 8 7 fuel ((after chain_ops)._data.set 2
        { bucketAt (after chain_ops)._data 2 with present := false }) 2 2).isSome) =
        [false, true] ∧
      ∃ n data', 1 ≤ n ∧ n < (after chain_ops)._capacity ∧
        (bucketAt (after chain_ops)._data ((2 + n) % (after chain_ops)._capacity)).present
          = false ∧
        (∀ i, 1 ≤ i → i < n →
          (bucketAt (after chain_ops)._data ((2 + i) % (after chain_ops)._capacity)).present
            = true) ∧
        (∀ fuel, remove_loop (after chain_ops)._capacity (after chain_ops)._mask fuel
            ((after chain_ops)._data.set 2
              { bucketAt (after chain_ops)._data 2 with present := false }) 2 2 =
          if n ≤ fuel then some data' else none) ∧
        remove (after chain_ops) 4 =
          some { after chain_ops with _data := data', _count := (after chain_ops)._count - 1 } :=
  ⟨⟨chain_ops, by decide⟩, by decide, by decide, by decide,
    compaction_terminates (after chain_ops) 4 2 ⟨chain_ops, by decide⟩ (by decide)
      (by decide)⟩

theorem remove_loop_two_iterations (capacity mask fuel : Nat) (data : List (Bucket V))
    (deleted bucket : Nat)
    (hp : (bucketAt data (wrap_next capacity bucket)).present = true)
    (hnext : (bucketAt data (wrap_next capacity (wrap_next capacity bucket))).present = false)
    (hne : wrap_next capacity (wrap_next capacity bucket) ≠ deleted) :
    (OnWalk (natural_slot mask (bucketAt data (wrap_next capacity bucket)).key) deleted
        (wrap_next capacity bucket) →
      remove_loop capacity mask (fuel + 2) data deleted bucket =
        some (move_bucket data deleted (wrap_next capacity bucket))) ∧
    (¬ OnWalk (natural_slot mask (bucketAt data (wrap_next capacity bucket)).key) deleted
        (wrap_next capacity bucket) →
      remove_loop capacity mask (fuel + 2) data deleted bucket = some data) := by
  obtain ⟨h1, h2⟩ := remove_loop_step capacity mask (fuel + 1) data deleted bucket hp
  have hneB : wrap_next capacity (wrap_next capacity bucket) ≠ wrap_next capacity bucket := by
    intro e
    rw [e, hp] at hnext
    exact absurd hnext (by simp)
  constructor
  · intro hon
    rw [h1 hon]
    apply remove_loop_break
    unfold move_bucket
    rw [bucketAt_set_ne _ _ (Ne.symm hneB), bucketAt_set_ne _ _ (Ne.symm hne)]
    exact hnext
  · intro hon
    rw [h2 hon]
    exact remove_loop_break capacity mask fuel data deleted _ hnext

/-- C15 (compaction move rule): in an iteration of the loop of `remove` that
scans a present bucket `B` with natural slot `N` while the vacancy is `D`, the
loop goes on with the record of `B` copied into `D` and `B` as the new
vacancy if `(D - N) mod capacity < (B - N) mod capacity`, and with the array
and the vacancy unchanged otherwise.  When the slot after `B` is empty and is
not `D`, the loop returns there: if the test holds, the array it returns has
the record of `B` in slot `D`, slot `B` empty and every other slot as before,
and if the test fails it returns the array unchanged.  The test fails when
`N = B`, and for `D < B` and `N ≠ B` it fails exactly when `D < N < B`. -/
theorem compaction_move_rule (capacity mask fuel : Nat) (data : List (Bucket V))
    (deleted bucket B N : Nat) (hm : mask < capacity) (hd : deleted < capacity)
    (hb : bucket < capacity) (hB : B = wrap_next capacity bucket)
    (hp : (bucketAt data B).present = true)
    (hN : N = split_mix_64 (bucketAt data B).key &&& mask) :
    remove_loop capacity mask (fuel + 1) data deleted bucket =
      (if (deleted + capacity - N) % capacity < (B + capacity - N) % capacity then
        remove_loop capacity mask fuel (move_bucket data deleted B) B B
      else remove_loop capacity mask fuel data deleted B) ∧
    (data.length = capacity → (bucketAt data (wrap_next capacity B)).present = false →
      wrap_next capacity B ≠ deleted →
      ∃ data', remove_loop capacity mask (fuel + 2) data deleted bucket = some data' ∧
        ((deleted + capacity - N) % capacity < (B + capacity - N) % capacity →
          bucketAt data' deleted = bucketAt data B ∧
          bucketAt data' B = { bucketAt data B with present := false } ∧
          ∀ s, s ≠ deleted → s ≠ B → bucketAt data' s = bucketAt data s) ∧
        (¬ (deleted + capacity - N) % capacity < (B + capacity - N) % capacity →
          data' = data)) ∧
    (N = B → ¬ (deleted + capacity - N) % capacity < (B + capacity - N) % capacity) ∧
    (deleted < B → N ≠ B →
      (¬ (deleted + capacity - N) % capacity < (B + capacity - N) % capacity ↔
        deleted < N ∧ N < B)) := by
  have hw := wrap_next_cases capacity bucket
  have hBlt : B < capacity := by omega
  have hNlt : N < capacity := by rw [hN]; exact natural_slot_lt hm _
  have hiff := onWalk_iff_mod hNlt hd hBlt
  subst hB
  have hstep := remove_loop_step capacity mask fuel data deleted bucket hp
  have hnat : natural_slot mask (bucketAt data (wrap_next capacity bucket)).key = N := hN.symm
  rw [hnat] at hstep
  refine ⟨?_, ?_, ?_, ?_⟩
  · split_ifs with ht
    · exact hstep.1 (hiff.mpr ht)
    · exact hstep.2 (fun hon => ht (hiff.mp hon))
  · intro hl hnext hne
    have h2 := remove_loop_two_iterations capacity mask fuel data deleted bucket hp hnext hne
    rw [hnat] at h2
    by_cases ht : (deleted + capacity - N) % capacity <
        (wrap_next capacity bucket + capacity - N) % capacity
    · have hon := hiff.mpr ht
      have hDB : deleted ≠ wrap_next capacity bucket := by
        unfold OnWalk at hon
        omega
      have hat := bucketAt_move_bucket data (by omega : deleted < data.length)
        (by omega : wrap_next capacity bucket < data.length) hDB
      refine ⟨_, h2.1 hon, ?_, fun hnt => absurd ht hnt⟩
      intro _
      refine ⟨?_, ?_, ?_⟩
      · rw [hat, if_neg hDB, if_pos rfl]
      · rw [hat, if_pos rfl]
      · intro s hsD hsB
        rw [hat, if_neg hsB, if_neg hsD]
    · exact ⟨data, h2.2 (fun hon => ht (hiff.mp hon)), fun h => absurd h ht, fun _ => rfl⟩
  · intro hNB
    rw [← hiff]
    unfold OnWalk
    omega
  · intro hlt hne
    rw [← hiff]
    unfold OnWalk
    omega

theorem compaction_move_rule_witness :
    7 < 8 ∧ 3 < 8 ∧ 4 = wrap_next 8 3 ∧ (bucketAt chain_vacated 4).present = true ∧
      2 = split_mix_64 (bucketAt chain_vacated 4).key &&& 7 ∧
      (remove_loop 8 7 8 chain_vacated 3 3).map (fun d => (bucketAt d 3, bucketAt d 4)) =
        some ({ key := 10, value := 100, present := true },
          { key := 10, value := 100, present := false }) ∧
      (remove (after chain_ops) 5).map (fun t' => (bucketAt t'._data 3, bucketAt t'._data 4)) =
        some ({ key := 10, value := 100, present := true },
          { key := 10, value := 100, present := false }) ∧
      (remove_loop 8 7 (6 + 1) chain_vacated 3 3 =
        (if (3 + 8 - 2) % 8 < (4 + 8 - 2) % 8 then
          remove_loop 8 7 6 (move_bucket chain_vacated 3 4) 4 4
        else remove_loop 8 7 6 chain_vacated 3 4) ∧
      (chain_vacated.length = 8 → (bucketAt chain_vacated (wrap_next 8 4)).present = false →
        wrap_next 8 4 ≠ 3 →
        ∃ data', remove_loop 8 7 (6 + 2) chain_vacated 3 3 = some data' ∧
          ((3 + 8 - 2) % 8 < (4 + 8 - 2) % 8 →
            bucketAt data' 3 = bucketAt chain_vacated 4 ∧
            bucketAt data' 4 = { bucketAt chain_vacated 4 with present := false } ∧
            ∀ s, s ≠ 3 → s ≠ 4 → bucketAt data' s = bucketAt chain_vacated s) ∧
          (¬ (3 + 8 - 2) % 8 < (4 + 8 - 2) % 8 → data' = chain_vacated)) ∧
      (2 = 4 → ¬ (3 + 8 - 2) % 8 < (4 + 8 - 2) % 8) ∧
      (3 < 4 → 2 ≠ 4 → (¬ (3 + 8 - 2) % 8 < (4 + 8 - 2) % 8 ↔ 3 < 2 ∧ 2 < 4))) :=
  ⟨by decide, by decide, by decide, by decide, by decide, by decide, by decide,
    compaction_move_rule 8 7 6 chain_vacated 3 3 4 2 (by decide) (by decide) (by decide)
      (by decide) (by decide) (by decide)⟩

/-- C16, as amended (wrapped case of the move rule): in an iteration of the
loop of `remove` whose vacancy `D` lies after the scanned present bucket `B`
(`B < D`) and whose natural slot `N` is not `B`, the record of `B` is moved
into `D`, and `B` becomes the vacancy, exactly when `B < N ≤ D`; `B` is left
in place and the vacancy stays in every other case (`N < B`, or `N` beyond
`D`).  When the slot after `B` is empty and is not `D`, the loop returns
there: for `B < N ≤ D` the array it returns has the record of `B` in slot
`D`, slot `B` empty and every other slot as before, and otherwise it returns
the array unchanged. -/
theorem wrapped_move_rule (capacity mask fuel : Nat) (data : List (Bucket V))
    (deleted bucket B N : Nat) (hB : B = wrap_next capacity bucket)
    (hp : (bucketAt data B).present = true)
    (hN : N = split_mix_64 (bucketAt data B).key &&& mask)
    (hw : B < deleted) (hne : N ≠ B) :
    (B < N ∧ N ≤ deleted →
      remove_loop capacity mask (fuel + 1) data deleted bucket =
        remove_loop capacity mask fuel (move_bucket data deleted B) B B) ∧
    (¬ (B < N ∧ N ≤ deleted) →
      remove_loop capacity mask (fuel + 1) data deleted bucket =
        remove_loop capacity mask fuel data deleted B) ∧
    (deleted < data.length → (bucketAt data (wrap_next capacity B)).present = false →
      wrap_next capacity B ≠ deleted →
      ∃ data', remove_loop capacity mask (fuel + 2) data deleted bucket = some data' ∧
        (B < N ∧ N ≤ deleted →
          bucketAt data' deleted = bucketAt data B ∧
          bucketAt data' B = { bucketAt data B with present := false } ∧
          ∀ s, s ≠ deleted → s ≠ B → bucketAt data' s = bucketAt data s) ∧
        (¬ (B < N ∧ N ≤ deleted) → data' = data)) := by
  subst hB
  have hstep := remove_loop_step capacity mask fuel data deleted bucket hp
  have hnat : natural_slot mask (bucketAt data (wrap_next capacity bucket)).key = N := hN.symm
  rw [hnat] at hstep
  have hiff : OnWalk N deleted (wrap_next capacity bucket) ↔
      (wrap_next capacity bucket < N ∧ N ≤ deleted) := by
    unfold OnWalk
    omega
  refine ⟨fun h => hstep.1 (hiff.mpr h), fun h => hstep.2 (fun hon => h (hiff.mp hon)), ?_⟩
  intro hl hnext hneD
  have h2 := remove_loop_two_iterations capacity mask fuel data deleted bucket hp hnext hneD
  rw [hnat] at h2
  by_cases ht : wrap_next capacity bucket < N ∧ N ≤ deleted
  · have hat := bucketAt_move_bucket data hl (by omega : wrap_next capacity bucket < data.length)
      (by omega : deleted ≠ wrap_next capacity bucket)
    refine ⟨_, h2.1 (hiff.mpr ht), ?_, fun hnt => absurd ht hnt⟩
    intro _
    refine ⟨?_, ?_, ?_⟩
    · rw [hat, if_neg (by omega), if_pos rfl]
    · rw [hat, if_pos rfl]
    · intro s hsD hsB
      rw [hat, if_neg hsB, if_neg hsD]
  · exact ⟨data, h2.2 (fun hon => ht (hiff.mp hon)), fun h => absurd h ht, fun _ => rfl⟩

theorem wrapped_move_rule_witness :
    0 = wrap_next 8 7 ∧ (bucketAt wrapped_pair_vacated 0).present = true ∧
      7 = split_mix_64 (bucketAt wrapped_pair_vacated 0).key &&& 7 ∧ 0 < 7 ∧ 7 ≠ 0 ∧
      (remove_loop 8 7 8 wrapped_pair_vacated 7 7).map
          (fun d => (bucketAt d 7, bucketAt d 0)) =
        some ({ key := 7, value := 70, present := true },
          { key := 7, value := 70, present := false }) ∧
      (remove (after wrapped_pair_ops) 0).map
          (fun t' => (bucketAt t'._data 7, bucketAt t'._data 0)) =
        some ({ key := 7, value := 70, present := true },
          { key := 7, value := 70, present := false }) ∧
      ((0 < 7 ∧ 7 ≤ 7 →
        remove_loop 8 7 (6 + 1) wrapped_pair_vacated 7 7 =
          remove_loop 8 7 6 (move_bucket wrapped_pair_vacated 7 0) 0 0) ∧
      (¬ (0 < 7 ∧ 7 ≤ 7) →
        remove_loop 8 7 (6 + 1) wrapped_pair_vacated 7 7 =
          remove_loop 8 7 6 wrapped_pair_vacated 7 0) ∧
      (7 < wrapped_pair_vacated.length →
        (bucketAt wrapped_pair_vacated (wrap_next 8 0)).present = false →
        wrap_next 8 0 ≠ 7 →
        ∃ data', remove_loop 8 7 (6 + 2) wrapped_pair_vacated 7 7 = some data' ∧
          (0 < 7 ∧ 7 ≤ 7 →
            bucketAt data' 7 = bucketAt wrapped_pair_vacated 0 ∧
            bucketAt data' 0 = { bucketAt wrapped_pair_vacated 0 with present := false } ∧
            ∀ s, s ≠ 7 → s ≠ 0 → bucketAt data' s = bucketAt wrapped_pair_vacated s) ∧
          (¬ (0 < 7 ∧ 7 ≤ 7) → data' = wrapped_pair_vacated))) :=
  ⟨by decide, by decide, by decide, by decide, by decide, by decide, by decide,
    wrapped_move_rule 8 7 6 wrapped_pair_vacated 7 7 0 7 (by decide) (by decide) (by decide)
      (by decide) (by decide)⟩

end HashTable

namespace Cpplibs.Random

theorem bit_width_le (n x : Nat) : bit_width n x ≤ n := by
  induction n generalizing x with
  | zero => simp [bit_width]
  | succ n ih =>
    unfold bit_width
    split_ifs
    · omega
    · have := ih (x / 2)
      omega

theorem lt_two_pow_bit_width (n x : Nat) (h : x < 2 ^ n) : x < 2 ^ bit_width n x := by
  induction n generalizing x with
  | zero =>
    simp only [pow_zero] at h
    simp [bit_width]
    omega
  | succ n ih =>
    unfold bit_width
    split_ifs with h0
    · subst h0; simp
    · have hx : x / 2 < 2 ^ n := by
        rw [pow_succ] at h
        omega
      have := ih (x / 2) hx
      rw [pow_succ]
      omega

theorem bit_width_zero (n : Nat) : bit_width n 0 = 0 := by
  cases n <;> simp [bit_width]

theorem two_pow_bit_width_le (n x : Nat) (h0 : x ≠ 0) (h : x < 2 ^ n) :
    1 ≤ bit_width n x ∧ 2 ^ (bit_width n x - 1) ≤ x := by
  induction n generalizing x with
  | zero =>
    simp only [pow_zero] at h
    omega
  | succ n ih =>
    unfold bit_width
    rw [if_neg h0]
    refine ⟨by omega, ?_⟩
    simp only [Nat.add_sub_cancel]
    by_cases h2 : x / 2 = 0
    · rw [h2, bit_width_zero]
      simp only [pow_zero]
      omega
    · have hx : x / 2 < 2 ^ n := by
        rw [pow_succ] at h
        omega
      obtain ⟨h1, h3⟩ := ih (x / 2) h2 hx
      have e : bit_width n (x / 2) = (bit_width n (x / 2) - 1) + 1 := by omega
      rw [e, pow_succ]
      omega

theorem all_ones_shiftRight (w : Nat) (hw : w ≤ 64) :
    (2 ^ 64 - 1) >>> (64 - w) = 2 ^ w - 1 := by
  rw [Nat.shiftRight_eq_div_pow]
  have e : (2 : Nat) ^ 64 = 2 ^ (64 - w) * 2 ^ w := by
    rw [← pow_add]
    congr 1
    omega
  have hA : 1 ≤ 2 ^ (64 - w) := Nat.one_le_two_pow
  have hB : 1 ≤ 2 ^ w := Nat.one_le_two_pow
  rw [e]
  generalize 2 ^ (64 - w) = A at hA
  generalize 2 ^ w = B at hB
  obtain ⟨B', rfl⟩ : ∃ B', B = B' + 1 := ⟨B - 1, by omega⟩
  simp only [Nat.add_sub_cancel]
  have hmul : A * (B' + 1) = B' * A + A := by ring
  apply Nat.div_eq_of_lt_le
  · rw [hmul]
    omega
  · have hmul' : (B' + 1) * A = B' * A + A := by ring
    rw [hmul, hmul']
    omega

theorem le_or_one (q : Nat) : q ≤ q ||| 1 :=
  Nat.le_of_testBit (fun i hi => by simp [hi])

theorem one_le_or_one (q : Nat) : 1 ≤ q ||| 1 :=
  Nat.le_of_testBit (fun i hi => by simp [hi])

theorem get_range_loop_spec (mask q : Nat) :
    ∀ (fuel : Nat) (r : Random) (x : Nat) (r' : Random),
      get_range_loop mask q fuel r = some (x, r') →
      ∃ n, n < fuel ∧ x = draw r n &&& mask ∧ x ≤ q ∧
        (∀ i, i < n → q < draw r i &&& mask) ∧ r' = advance r (n + 1) := by
  intro fuel
  induction fuel with
  | zero => intro r x r' h; simp [get_range_loop] at h
  | succ k ih =>
    intro r x r' h
    unfold get_range_loop at h
    simp only at h
    split_ifs at h with hc
    · obtain ⟨n, h1, h2, h3, h4, h5⟩ := ih _ x r' h
      refine ⟨n + 1, by omega, h2, h3, ?_, h5⟩
      intro i hi
      cases i with
      | zero => exact hc
      | succ j => exact h4 j (by omega)
    · simp only [Option.some.injEq, Prod.mk.injEq] at h
      refine ⟨0, by omega, h.1.symm, ?_, ?_, h.2.symm⟩
      · rw [← h.1]
        omega
      · intro i hi
        omega

theorem get_range_mask (range : Nat) (h1 : 1 ≤ range) (h2 : range < 2 ^ 64) :
    (range + 2 ^ 64 - 1) % 2 ^ 64 = range - 1 ∧
      ∃ b, 1 ≤ b ∧ b ≤ 64 ∧
        (2 ^ 64 - 1) >>> clzll (((range + 2 ^ 64 - 1) % 2 ^ 64) ||| 1) = 2 ^ b - 1 ∧
        range - 1 ≤ 2 ^ b - 1 ∧ ∀ b', 1 ≤ b' → range - 1 ≤ 2 ^ b' - 1 → b ≤ b' := by
  have hq : (range + 2 ^ 64 - 1) % 2 ^ 64 = range - 1 := by
    have e : range + 2 ^ 64 - 1 = (range - 1) + 2 ^ 64 := by omega
    rw [e, Nat.add_mod_right, Nat.mod_eq_of_lt (by omega)]
  refine ⟨hq, ?_⟩
  rw [hq]
  have hy1 : 1 ≤ (range - 1) ||| 1 := one_le_or_one _
  have hy2 : (range - 1) ||| 1 < 2 ^ 64 :=
    Nat.or_lt_two_pow (by omega) (by norm_num)
  have hqy : range - 1 ≤ (range - 1) ||| 1 := le_or_one _
  have hw := bit_width_le 64 ((range - 1) ||| 1)
  have hlt := lt_two_pow_bit_width 64 _ hy2
  obtain ⟨hw1, hle⟩ := two_pow_bit_width_le 64 ((range - 1) ||| 1) (by omega) hy2
  refine ⟨bit_width 64 ((range - 1) ||| 1), hw1, hw, ?_, by omega, ?_⟩
  · unfold clzll
    exact all_ones_shiftRight _ hw
  · intro b' hb' hle'
    have hpos : 1 ≤ 2 ^ b' := Nat.one_le_two_pow
    have h1lt : 1 < 2 ^ b' := by
      calc 1 < 2 ^ 1 := by norm_num
        _ ≤ 2 ^ b' := Nat.pow_le_pow_right (by norm_num) hb'
    have hylt : (range - 1) ||| 1 < 2 ^ b' := Nat.or_lt_two_pow (by omega) h1lt
    have hpow : 2 ^ (bit_width 64 ((range - 1) ||| 1) - 1) < 2 ^ b' := lt_of_le_of_lt hle hylt
    have := (Nat.pow_lt_pow_iff_right (by norm_num : 1 < 2)).mp hpow
    omega

/-- C20 (`get_range` stays in range): for every generator state and every
`range` with `1 ≤ range < 2^64`, whenever the bitmask rejection loop of
`get_range(range)` returns `x`, then `x < range`; the loop runs with the mask
`2^b - 1` for the least `b ≥ 1` with `2^b - 1 ≥ range - 1`, and `x` is the
first masked `get_u64()` draw that is at most `range - 1`. -/
theorem get_range_in_range (fuel : Nat) (r : Random) (range x : Nat) (r' : Random)
    (h1 : 1 ≤ range) (h2 : range < 2 ^ 64) (h : get_range fuel r range = some (x, r')) :
    x < range ∧
      ∃ b, 1 ≤ b ∧ range - 1 ≤ 2 ^ b - 1 ∧
        (∀ b', 1 ≤ b' → range - 1 ≤ 2 ^ b' - 1 → b ≤ b') ∧
        get_range fuel r range = get_range_loop (2 ^ b - 1) (range - 1) fuel r ∧
        ∃ n, n < fuel ∧ x = draw r n &&& (2 ^ b - 1) ∧ x ≤ range - 1 ∧
          (∀ i, i < n → range - 1 < draw r i &&& (2 ^ b - 1)) ∧
          r' = advance r (n + 1) := by
  obtain ⟨hq, b, hb1, _, hmask, hb2, hb3⟩ := get_range_mask range h1 h2
  have heq : get_range fuel r range = get_range_loop (2 ^ b - 1) (range - 1) fuel r := by
    unfold get_range
    simp only
    rw [hmask, hq]
  rw [heq] at h
  obtain ⟨n, hn1, hn2, hn3, hn4, hn5⟩ := get_range_loop_spec _ _ fuel r x r' h
  exact ⟨by omega, b, hb1, hb2, hb3, heq, n, hn1, hn2, hn3, hn4, hn5⟩

theorem get_range_in_range_witness :
    1 ≤ 6 ∧ 6 < 2 ^ 64 ∧
      [0, 1, 2].map (fun i => draw (seed 4) i &&& (2 ^ 3 - 1)) = [6, 6, 2] ∧
      get_range 2 (seed 4) 6 = none ∧
      get_range 3 (seed 4) 6 = some (2, advance (seed 4) 3) ∧
      (2 < 6 ∧
        ∃ b, 1 ≤ b ∧ 6 - 1 ≤ 2 ^ b - 1 ∧
          (∀ b', 1 ≤ b' → 6 - 1 ≤ 2 ^ b' - 1 → b ≤ b') ∧
          get_range 3 (seed 4) 6 = get_range_loop (2 ^ b - 1) (6 - 1) 3 (seed 4) ∧
          ∃ n, n < 3 ∧ 2 = draw (seed 4) n &&& (2 ^ b - 1) ∧ 2 ≤ 6 - 1 ∧
            (∀ i, i < n → 6 - 1 < draw (seed 4) i &&& (2 ^ b - 1)) ∧
            advance (seed 4) 3 = advance (seed 4) (n + 1)) :=
  ⟨by decide, by decide, by decide, by decide, by decide,
    get_range_in_range 3 (seed 4) 6 2 (advance (seed 4) 3) (by decide) (by decide)
      (by decide)⟩
end Cpplibs.Random
